import Mathlib

/-!
Verification of the partitioned aggregation engine of the `one_billion_rows`
repository (crates `sol1` and `sol2`), as a shallow embedding in Lean.

Modelling conventions, used throughout:
* a byte buffer is a `List Nat` (each element a byte value, `< 256` for real inputs);
* Rust `i32`/`i64`/`i16` arithmetic is modelled by unbounded `Int` where the
  source values provably stay far from the representation bounds, and by
  explicit wrap-around `% 2 ^ 64` where the source relies on `u64` wrapping;
* a Rust `panic!` (or a panicking `unwrap` / arithmetic overflow that panics in
  every build profile) is modelled by an `Option` result of `none`;
* `f32`/`f64` formatting with one fractional digit of a value that is an exact
  multiple of one tenth is modelled by exact decimal rendering (`fmtTenths`),
  and `f64` arithmetic in `sol2`'s merge phase is idealised as exact rational
  arithmetic (unreduced integer fractions, `Frac`; the specification-side
  rounding function `roundHalfAwayQ` uses `Rat`), with `f64::round` modelled
  by round-half-away-from-zero.
-/

/-- Bytes of a Lean string; the claim inputs are ASCII, where `Char.toNat`
gives exactly the UTF-8 byte sequence. -/
def strBytes (s : String) : List Nat := s.data.map (fun c => c.toNat)

/-- Render a byte sequence as a string (ASCII range in every input considered). -/
def bytesToString (l : List Nat) : String := String.mk (l.map (fun b => Char.ofNat b))

/-- The contiguous byte range `[s, e)` of a buffer, i.e. Rust `&data[s..e]`. -/
def byteSlice (data : List Nat) (s e : Nat) : List Nat := (data.drop s).take (e - s)

/-- Decimal rendering of an integer number of tenths with exactly one
fractional digit: `fmtTenths 101 = "10.1"`, `fmtTenths (-50) = "-5.0"`.
This is what Rust's `"{:.1}"` formatting produces for `(t as f32) / 10.0`
(respectively for the `f64` analogue in `sol2`) whenever `|t| <= 999`:
the nearest float to `t/10` is within `10^-5` of it, so the correctly rounded
one-fractional-digit decimal output is exactly `t/10`. -/
def fmtTenths (t : Int) : String :=
  let sgn := if t < 0 then "-" else ""
  let a := t.natAbs
  sgn ++ toString (a / 10) ++ "." ++ toString (a % 10)

/-- Round half away from zero on rationals: the rounding performed by
`f64::round` in Rust, written here from the specification's words
"round-half-away-from-zero". -/
def roundHalfAwayQ (x : Rat) : Int :=
  if 0 ≤ x then Int.floor (x + 1/2) else -Int.floor (-x + 1/2)

/-- An exact (unreduced) fraction: the idealisation of an `f64` value as the
exact rational it denotes. The denominator is positive in every use below. -/
structure Frac where
  num : Int
  den : Int
  deriving Repr, DecidableEq

/-- The fraction denoting an integer (`as f64` conversion of an in-range
integer is exact). -/
def Frac.ofInt (n : Int) : Frac := ⟨n, 1⟩

/-- Exact division of a fraction by a (nonzero) integer. -/
def Frac.divInt (q : Frac) (m : Int) : Frac := ⟨q.num, q.den * m⟩

/-- Exact multiplication of a fraction by an integer. -/
def Frac.mulInt (q : Frac) (m : Int) : Frac := ⟨q.num * m, q.den⟩

/-- `f64::round` (round half away from zero) on an exact fraction with
positive denominator: `round(|n|/d) = floor((2|n| + d) / (2d))`, negated for
negative numerators. -/
def roundHalfAwayF (q : Frac) : Int :=
  let r := ((2 * q.num.natAbs + q.den.natAbs) / (2 * q.den.natAbs) : Nat)
  if 0 ≤ q.num then (r : Int) else -(r : Int)

/-- Model of Rust `"{:.1}"` formatting of an f64 that is an exact multiple of
one tenth (every value formatted by the merge phases is). -/
def fmtFrac1 (q : Frac) : String := fmtTenths (roundHalfAwayF (q.mulInt 10))

/-- `memchr_newline` from `sol1/src/lib.rs` and `sol2/src/lib.rs`
(`slice.iter().position(|&b| b == b'\n')`). -/
def memchr_newline : List Nat → Option Nat
  | [] => none
  | b :: rest => if b = 10 then some 0 else (memchr_newline rest).map (fun i => i + 1)

/-- Loop body of `chunk_by_newlines` (identical in `sol1` and `sol2`).
`fuel` only bounds the recursion; `fuel > data.length - s` always suffices
(each iteration advances `s` by at least one). -/
def chunkGo : Nat → List Nat → Nat → Nat → List (Nat × Nat)
  | 0, _, _, _ => []
  | fuel + 1, data, chunk_size, s =>
    if s < data.length then
      if data.length ≤ s + chunk_size then [(s, data.length)]
      else
        match memchr_newline (data.drop (s + chunk_size)) with
        | some off =>
          (s, s + chunk_size + off + 1) :: chunkGo fuel data chunk_size (s + chunk_size + off + 1)
        | none => [(s, data.length)]
    else []

/-- `chunk_by_newlines` — the partitioner, textually identical in
`sol1/src/lib.rs` and `sol2/src/lib.rs`. -/
def chunk_by_newlines (data : List Nat) (workers : Nat) : List (Nat × Nat) :=
  if workers = 0 then [(0, data.length)]
  else
    let base := data.length / max workers 1
    let chunk_size := if base = 0 then data.length else base
    chunkGo (data.length + 1) data chunk_size 0

/-- `Option`-monad map over a list, in order: the model of spawning one
worker per chunk and collecting their results in chunk order (a panic in any
worker aborts the whole computation). -/
def optMapM {A B : Type} (f : A → Option B) : List A → Option (List B)
  | [] => some []
  | r :: rest =>
    match f r with
    | none => none
    | some t =>
      match optMapM f rest with
      | none => none
      | some ts => some (t :: ts)

namespace Sol1

/-- `Aggregator` from `sol1/src/lib.rs`. The Rust struct additionally carries
a `name : String` (set from the key via `String::from_utf8_lossy`, the
identity on the ASCII station names of the input contract); here the name is
the key of the association list holding the aggregator. -/
structure Aggregator where
  min : Int
  max : Int
  sum : Int
  count : Nat
  deriving Repr, DecidableEq

/-- `Aggregator::default()`: `i32::MAX` / `i32::MIN` sentinels, zero sum and count. -/
def Aggregator.default : Aggregator := ⟨2147483647, -2147483648, 0, 0⟩

/-- The fold performed on an entry per observed value in `scan_chunk`:
`max = max(val, max); min = min(val, min); sum += val; count += 1`. -/
def Aggregator.fold (a : Aggregator) (v : Int) : Aggregator :=
  { a with max := Max.max v a.max, min := Min.min v a.min, sum := a.sum + v, count := a.count + 1 }

/-- `parse_digits` from `sol1/src/lib.rs`. A byte outside
`{'-', '.', '0'..'9'}` hits the `panic!` arm (`none`); a buffer of fewer than
2 bytes underflows `size as u32 - 2` (`none`, the debug-profile panic; no such
buffer occurs in any run considered here). `i32` arithmetic is modelled as
exact `Int`; for the at-most-6-byte tokens of the input format the two agree. -/
def parse_digits (buffer : List Nat) : Option Int :=
  if buffer.length < 2 then none
  else parse_digits_go buffer 1 ((10 : Int) ^ (buffer.length - 2)) 0
where
  parse_digits_go : List Nat → Int → Int → Int → Option Int
    | [], neg, _, acc => some (acc * neg)
    | b :: rest, neg, pos_mul, acc =>
      if b = 45 then parse_digits_go rest (-1) (pos_mul / 10) acc
      else if b = 46 then parse_digits_go rest neg pos_mul acc
      else if 48 ≤ b ∧ b ≤ 57 then
        parse_digits_go rest neg (pos_mul / 10) (acc + ((b : Int) - 48) * pos_mul)
      else none

/-- `mean_tenths` from `sol1/src/lib.rs`. Every division has non-negative
operands, where Rust's truncating `i64` division and Lean's `Int` division
coincide. -/
def mean_tenths (sum_scaled : Int) (count : Nat) : Int :=
  let denom : Int := (count : Int)
  if 0 ≤ sum_scaled then (sum_scaled + denom / 2) / denom
  else -((-sum_scaled + denom / 2) / denom)

/-- Association lookup by station key (the model of `AHashMap` access:
keys are unique in every table built below, so first-match lookup is map
lookup). -/
def lookupT : List (List Nat × Aggregator) → List Nat → Option Aggregator
  | [], _ => none
  | (k, a) :: rest, key => if k = key then some a else lookupT rest key

/-- `res.entry(current_station).or_insert_with(Aggregator::default)` followed
by the min/max/sum/count fold, on the association-list model of the map.
A missing key is appended, so insertion order is preserved. -/
def updateTable : List (List Nat × Aggregator) → List Nat → Int → List (List Nat × Aggregator)
  | [], key, v => [(key, Aggregator.default.fold v)]
  | (k, a) :: rest, key, v =>
    if k = key then (k, a.fold v) :: rest else (k, a) :: updateTable rest key v

/-- The scanner state of `scan_chunk`: the table, the bytes of the current
field (`buffer[field_start..pos]`), the station slice captured at the last
`';'`, and the `has_station` flag. -/
structure ScanState where
  tbl : List (List Nat × Aggregator)
  field : List Nat
  station : List Nat
  has : Bool

/-- One iteration of the `scan_chunk` loop, on the byte at the cursor. -/
def scanStep (st : ScanState) (b : Nat) : Option ScanState :=
  if b = 59 then some { st with station := st.field, field := [], has := true }
  else if b = 10 then
    if st.has then
      if st.field = [] then some { st with field := [], has := false }
      else
        match parse_digits st.field with
        | none => none
        | some v =>
          some { st with tbl := updateTable st.tbl st.station v, field := [], has := false }
    else some { st with field := [], has := false }
  else some { st with field := st.field ++ [b] }

/-- The `scan_chunk` loop over a byte sequence. -/
def scanBytes (st : ScanState) : List Nat → Option ScanState
  | [] => some st
  | b :: rest =>
    match scanStep st b with
    | none => none
    | some st2 => scanBytes st2 rest

/-- `scan_chunk` from `sol1/src/lib.rs`. The Rust function returns the hash
map's values in unspecified iteration order; the model returns the
(key, aggregator) pairs in insertion order — `solve` sorts by name before
formatting, so every observable result is unaffected. -/
def scan_chunk (start e : Nat) (buffer : List Nat) : Option (List (List Nat × Aggregator)) :=
  (scanBytes ⟨[], [], [], false⟩ (byteSlice buffer start e)).map (fun st => st.tbl)

/-- The merge fold of `solve`: `min = min of mins, max = max of maxes,
sum += sum, count += count`. -/
def mergeAgg (a v : Aggregator) : Aggregator :=
  ⟨Min.min a.min v.min, Max.max a.max v.max, a.sum + v.sum, a.count + v.count⟩

/-- Merging one partition entry into the global result vector
(`res.iter_mut().find(|a| a.name == v.name)`, else push). -/
def mergeOne : List (List Nat × Aggregator) → List Nat → Aggregator → List (List Nat × Aggregator)
  | [], key, v => [(key, v)]
  | (k, a) :: rest, key, v =>
    if k = key then (k, mergeAgg a v) :: rest else (k, a) :: mergeOne rest key v

/-- Merging a whole partition table into the global result (the body of the
per-handle loop in `solve`; the `part.is_empty()` branch of the source is a
no-op and needs no separate case). -/
def mergeInto (res part : List (List Nat × Aggregator)) : List (List Nat × Aggregator) :=
  part.foldl (fun r kv => mergeOne r kv.1 kv.2) res

/-- Fan-in of all partition tables, in partition order. -/
def mergeAll (tbls : List (List (List Nat × Aggregator))) : List (List Nat × Aggregator) :=
  tbls.foldl mergeInto []

/-- Byte-lexicographic comparison of station names, the order used by
`res.sort_unstable_by(|a, b| a.name.cmp(&b.name))` (Rust `String` order is
byte-lexicographic; the names are stored losslessly for ASCII input). -/
def lexLeB : List Nat → List Nat → Bool
  | [], _ => true
  | _ :: _, [] => false
  | a :: as1, b :: bs1 => if a < b then true else if b < a then false else lexLeB as1 bs1

/-- The sort relation on table entries: compare keys byte-lexicographically. -/
def entryLe (x y : List Nat × Aggregator) : Prop := lexLeB x.1 y.1 = true

instance : DecidableRel entryLe := fun x y => decEq (lexLeB x.1 y.1) true

/-- Format one entry: `name=min/mean/max`, each rendered with one fractional
digit (see `fmtTenths`). -/
def fmtEntry (kv : List Nat × Aggregator) : String :=
  bytesToString kv.1 ++ "=" ++ fmtTenths kv.2.min ++ "/"
    ++ fmtTenths (mean_tenths kv.2.sum kv.2.count) ++ "/" ++ fmtTenths kv.2.max

/-- Sort the merged table by station name and serialize
`{name=min/mean/max, ...}` with a trailing newline. -/
def formatTable (t : List (List Nat × Aggregator)) : String :=
  "\x7b" ++ String.intercalate (", ") ((List.insertionSort entryLe t).map fmtEntry)
    ++ "\x7d" ++ "\n"

/-- Scan every partition of the given range list. -/
def partScans (data : List Nat) (rs : List (Nat × Nat)) :
    Option (List (List (List Nat × Aggregator))) :=
  optMapM (fun r => scan_chunk r.1 r.2 data) rs

/-- The pipeline of `solve` after the partitioner, for an explicit range
list: scan each partition, merge, sort, format. -/
def solveParts (data : List Nat) (rs : List (Nat × Nat)) : Option String :=
  (partScans data rs).map (fun tbls => formatTable (mergeAll tbls))

/-- `solve` from `sol1/src/lib.rs`, for an in-memory buffer (the mmap of the
input file) and an explicit worker count (`rayon::current_num_threads().max(1)`
in the source). -/
def solve (data : List Nat) (workers : Nat) : Option String :=
  solveParts data (chunk_by_newlines data workers)

end Sol1

namespace Sol2

/-- `OFFSET64` from `sol2/src/lib.rs`. -/
def OFFSET64 : Nat := 14695981039346656037

/-- `PRIME64` from `sol2/src/lib.rs`. -/
def PRIME64 : Nat := 1099511628211

/-- `BUCKET_SIZE` from `sol2/src/lib.rs` (`1 << 25`). -/
def BUCKET_SIZE : Nat := 33554432

/-- The `u64` modulus for wrap-around arithmetic. -/
def U64 : Nat := 18446744073709551616

/-- `Hash::index`: FNV-like mix then mask by the table size. -/
def hashIndex (h0 : Nat) : Nat :=
  (((OFFSET64 ^^^ h0) * PRIME64) % U64) &&& (BUCKET_SIZE - 1)

/-- `create_hash` from `sol2/src/lib.rs`. -/
def create_hash (u : Nat) (p : Nat) : Nat :=
  if 8 ≤ p then u else u &&& ((1 <<< (p * 8)) - 1)

/-- Little-endian packing of a byte list into a natural number, the value of
the `u64` obtained from the zero-padded 8-byte array of the bytes (trailing
zero bytes do not change the value, so no explicit padding is needed). -/
def packLE : List Nat → Nat
  | [] => 0
  | b :: rest => b + 256 * packLE rest

/-- `city_hash8_prefix` from `sol2/src/lib.rs` (the name is kept in this
shortened form): the little-endian `u64` of the first `min(8, len)` bytes,
zero-padded. -/
def city_hash8 (bytes : List Nat) : Nat := packLE (bytes.take 8)

/-- `load_u64_le` from `sol2/src/lib.rs` (callers always pass at least
8 bytes). -/
def load_u64_le (bytes : List Nat) : Nat := packLE (bytes.take 8)

/-- `u64::trailing_zeros` with explicit fuel 64 (64 for the value 0,
matching Rust). -/
def trailingZeros : Nat → Nat → Nat
  | 0, _ => 0
  | fuel + 1, n => if n % 2 = 1 then 0 else 1 + trailingZeros fuel (n / 2)

/-- `find_semicolon` from `sol2/src/lib.rs`: the SWAR
has-byte-equal-to-`';'` trick; returns the byte index `0..7` of the first
`';'` in the word, else `-1`. -/
def find_semicolon (word : Nat) : Int :=
  let m1 := word ^^^ 4268070197446523707
  let m2 := ((m1 + (U64 - 72340172838076673)) % U64) &&& (m1 ^^^ (U64 - 1))
              &&& 9259542123273814144
  if m2 = 0 then (-1 : Int) else ((trailingZeros 64 m2 / 8 : Nat) : Int)

/-- `CHAR_MASK0` .. `CHAR_MASK4` and the dot patterns from `sol2/src/lib.rs`. -/
def CHAR_MASK0 : Nat := 255
def CHAR_MASK1 : Nat := 65280
def CHAR_MASK2 : Nat := 16711680
def CHAR_MASK3 : Nat := 4278190080
def CHAR_MASK4 : Nat := 1095216660480
def DOT1 : Nat := 11776
def DOT2 : Nat := 3014656

/-- `parse_number` from `sol2/src/lib.rs`. `u64` subtraction and
multiplication wrap modulo `2^64` (release profile; in the debug profile the
same inputs panic at the subtraction, which is also `none`);
`i16::try_from(x as u64)` succeeds exactly for `x <= 32767`, and a failing
`unwrap` panics (`none`). `saturating_neg` never saturates on the values that
pass `try_from`. -/
def parse_number (u : Nat) : Option (Int × Nat) :=
  if u &&& CHAR_MASK1 = DOT1 then
    let ones := ((((u &&& CHAR_MASK0) + (U64 - 48)) % U64) * 10) % U64
    let tenths := (((u &&& CHAR_MASK2) >>> 16) + (U64 - 48)) % U64
    let s := (ones + tenths) % U64
    if s ≤ 32767 then some ((s : Int), 4) else none
  else if u &&& CHAR_MASK2 = DOT2 then
    let v0 := u &&& CHAR_MASK0
    let neg := v0 = 45
    let tens := if neg then 0 else (((v0 + (U64 - 48)) % U64) * 100) % U64
    let ones := ((((u &&& CHAR_MASK1) >>> 8) + (U64 - 48)) % U64) * 10 % U64
    let tenths := (((u &&& CHAR_MASK3) >>> 24) + (U64 - 48)) % U64
    let s := (ones + tenths + tens) % U64
    if s ≤ 32767 then some (if neg then -(s : Int) else (s : Int), 5) else none
  else
    let tens := ((((u &&& CHAR_MASK1) >>> 8) + (U64 - 48)) % U64) * 100 % U64
    let ones := ((((u &&& CHAR_MASK2) >>> 16) + (U64 - 48)) % U64) * 10 % U64
    let tenths := (((u &&& CHAR_MASK4) >>> 32) + (U64 - 48)) % U64
    let s := (tens + ones + tenths) % U64
    if s ≤ 32767 then some (-(s : Int), 6) else none

/-- `Node` from `sol2/src/lib.rs`. The chain link `next` is represented by
the node's position in its chain list; `min`/`max` are `i16` values (always
in range here), `sum`/`count` are 64-bit accumulators, all modelled as `Int`. -/
structure Node where
  key : List Nat
  hash : Nat
  sum : Int
  count : Int
  min : Int
  max : Int
  deriving Repr, DecidableEq

/-- `Node::new`: `i16::MAX` / `i16::MIN` sentinels, zero sum and count. -/
def Node.new (key : List Nat) (hash : Nat) : Node := ⟨key, hash, 0, 0, 32767, -32768⟩

/-- The fold applied to a node per observation in `process_partition`:
`min = min(min, temp); max = max(max, temp); sum += temp; count += 1`. -/
def nodeFold (n : Node) (temp : Int) : Node :=
  { n with
    min := Min.min n.min temp
    max := Max.max n.max temp
    sum := n.sum + temp
    count := n.count + 1 }

/-- The node-matching test of `find` / `find_mut` / `insert`:
hash equality, plus full key comparison only for keys longer than 8 bytes. -/
def nodeMatch (h : Nat) (key : List Nat) (n : Node) : Bool :=
  decide (n.hash = h ∧ (key.length ≤ 8 ∨ key = n.key))

/-- `Bucket` from `sol2/src/lib.rs`: the `BUCKET_SIZE` array of chain heads
is modelled sparsely as an association list from used index to chain (all
other indices hold the empty chain, i.e. `None`), plus the first-seen key
list. -/
structure Bucket where
  keys : List (List Nat)
  slots : List (Nat × List Node)

/-- `Bucket::new()`: every head empty, no keys. -/
def Bucket.new : Bucket := ⟨[], []⟩

/-- The chain stored at an index (empty when the index is absent). -/
def slotGet : List (Nat × List Node) → Nat → List Node
  | [], _ => []
  | (j, c) :: rest, i => if j = i then c else slotGet rest i

/-- Store a chain at an index. -/
def slotSet : List (Nat × List Node) → Nat → List Node → List (Nat × List Node)
  | [], i, c => [(i, c)]
  | (j, c0) :: rest, i, c => if j = i then (j, c) :: rest else (j, c0) :: slotSet rest i c

/-- `Bucket::find`: walk the chain at the hash's index for the first match. -/
def Bucket.find (b : Bucket) (h : Nat) (key : List Nat) : Option Node :=
  (slotGet b.slots (hashIndex h)).find? (nodeMatch h key)

/-- Walk a chain and fold `temp` into the first matching node; `none` when
no node matches. -/
def chainFold (h : Nat) (key : List Nat) (temp : Int) : List Node → Option (List Node)
  | [] => none
  | n :: rest =>
    if nodeMatch h key n then some (nodeFold n temp :: rest)
    else (chainFold h key temp rest).map (fun c => n :: c)

/-- `Bucket::insert` immediately followed by the min/max/sum/count update —
the two always occur together in `process_partition`. A missing node is
appended at the tail of its chain and its key recorded once, exactly as in
the source. (`String::from_utf8(key).unwrap()` is the identity on the ASCII
keys of the input contract and is modelled as the raw byte key.) -/
def Bucket.insertFold (b : Bucket) (h : Nat) (key : List Nat) (temp : Int) : Bucket :=
  let i := hashIndex h
  let chain := slotGet b.slots i
  match chainFold h key temp chain with
  | some chain2 => { b with slots := slotSet b.slots i chain2 }
  | none =>
    { keys := b.keys ++ [key],
      slots := slotSet b.slots i (chain ++ [nodeFold (Node.new key h) temp]) }

/-- `scan_city_slow` from `sol2/src/lib.rs`. -/
def scan_city_slow (data : List Nat) : List Nat × Nat :=
  match memchr_semicolon data with
  | some pos => (data.take pos, pos + 1)
  | none => (data, data.length)
where
  memchr_semicolon : List Nat → Option Nat
    | [] => none
    | b :: rest =>
      if b = 59 then some 0 else (memchr_semicolon rest).map (fun i => i + 1)

/-- The inner word-at-a-time semicolon search of `process_partition`
(the `while i + 8 <= end` loop): the absolute position of the first `';'`
found at word granularity, else `none` (then the caller falls back to
`scan_city_slow` from the original start). `fuel > e` always suffices. -/
def scanSemiFar : Nat → List Nat → Nat → Nat → Option Nat
  | 0, _, _, _ => none
  | fuel + 1, data, i, e =>
    if i + 8 ≤ e then
      let u := load_u64_le (byteSlice data i (i + 8))
      let idx := find_semicolon u
      if 0 ≤ idx then some (i + idx.toNat) else scanSemiFar fuel data (i + 8) e
    else none

/-- `process_partition` from `sol2/src/lib.rs`, for the range `[start, e)`.
`fuel` only bounds the recursion (`fuel > e - start` always suffices: every
iteration advances `start` or returns). The zero-padded tail windows
(`tmp[..avail]`) are modelled by `packLE` of the remaining slice, whose value
is that of the padded array. -/
def process_partition : Nat → List Nat → Nat → Nat → Bucket → Option Bucket
  | 0, _, _, _, _ => none
  | fuel + 1, data, start, e, b =>
    if start < e then
      if e < start + 8 then
        let cs := scan_city_slow (byteSlice data start e)
        let start2 := start + cs.2
        let h := create_hash (city_hash8 cs.1) cs.1.length
        let avail := e - start2
        let u := packLE (byteSlice data start2 e)
        match parse_number u with
        | none => none
        | some ta =>
          process_partition fuel data (start2 + Min.min ta.2 avail) e (b.insertFold h cs.1 ta.1)
      else
        let w := load_u64_le (byteSlice data start (start + 8))
        let idx := find_semicolon w
        let cp : List Nat × Nat :=
          if 0 ≤ idx then (byteSlice data start (start + idx.toNat), start + idx.toNat + 1)
          else
            match scanSemiFar (e + 1) data (start + 8) e with
            | some p => (byteSlice data start p, p + 1)
            | none =>
              let cs := scan_city_slow (byteSlice data start e)
              (cs.1, start + cs.2)
        let h := create_hash (city_hash8 cp.1) cp.1.length
        if e < cp.2 + 8 then
          let avail := e - cp.2
          let u := packLE (byteSlice data cp.2 e)
          match parse_number u with
          | none => none
          | some ta =>
            process_partition fuel data (cp.2 + Min.min ta.2 avail) e (b.insertFold h cp.1 ta.1)
        else
          let u := load_u64_le (byteSlice data cp.2 (cp.2 + 8))
          match parse_number u with
          | none => none
          | some ta =>
            process_partition fuel data (cp.2 + ta.2) e (b.insertFold h cp.1 ta.1)
    else some b

/-- Remove consecutive duplicates — `Vec::dedup()` (applied after sorting,
so it removes all duplicates). -/
def dedupConsec : List (List Nat) → List (List Nat)
  | [] => []
  | [a] => [a]
  | a :: c :: rest => if a = c then dedupConsec (c :: rest) else a :: dedupConsec (c :: rest)

/-- The sort relation on city names — `Vec<String>::sort()`, byte-lexicographic. -/
def keyLe (a c : List Nat) : Prop := Sol1.lexLeB a c = true

instance : DecidableRel keyLe := fun a c => decEq (Sol1.lexLeB a c) true

/-- The per-city fold of the merge phase of `solve`: recompute the hash,
`find` the city in every partition bucket, and fold
`(min of mins, max of maxes, sum of sums, count of counts)` starting from the
`i16::MAX / i16::MIN / 0 / 0` accumulators. -/
def cityStats (groups : List Bucket) (city : List Nat) : Int × Int × Int × Int :=
  let h := create_hash (city_hash8 city) city.length
  groups.foldl
    (fun acc g =>
      match g.find h city with
      | some node =>
        (Min.min acc.1 node.min, Max.max acc.2.1 node.max,
         acc.2.2.1 + node.sum, acc.2.2.2 + node.count)
      | none => acc)
    (32767, -32768, 0, 0)

/-- Format one merged entry: `city=min/avg/max`, each value passed through
`round1` (`f64` idealised as exact rationals) and rendered with one
fractional digit. -/
def fmtEntry (groups : List Bucket) (city : List Nat) : String :=
  let st := cityStats groups city
  bytesToString city ++ "=" ++ fmtFrac1 (round1 ((Frac.ofInt st.1).divInt 10)) ++ "/"
    ++ fmtFrac1 (round1 (((Frac.ofInt st.2.2.1).divInt 10).divInt st.2.2.2)) ++ "/"
    ++ fmtFrac1 (round1 ((Frac.ofInt st.2.1).divInt 10))
where
  /-- `round1` from `sol2/src/lib.rs`: `(x * 10.0).round() / 10.0`, with `f64`
  idealised as exact rational arithmetic and `f64::round` as
  round-half-away-from-zero. -/
  round1 (x : Frac) : Frac := (Frac.ofInt (roundHalfAwayF (x.mulInt 10))).divInt 10

/-- The pipeline of `solve` after the partitioner, for an explicit range
list: process each partition, take the sorted deduplicated union of the key
lists, and render each city from its folded statistics. -/
def solveParts (data : List Nat) (rs : List (Nat × Nat)) : Option String :=
  match optMapM (fun r => process_partition (data.length + 1) data r.1 r.2 Bucket.new) rs with
  | none => none
  | some groups =>
    let cities := dedupConsec (List.insertionSort keyLe ((groups.map Bucket.keys).flatten))
    some ("\x7b" ++ String.intercalate (", ") (cities.map (fmtEntry groups)) ++ "\x7d" ++ "\n")

/-- `solve` from `sol2/src/lib.rs`, for an in-memory buffer and an explicit
worker count. -/
def solve (data : List Nat) (workers : Nat) : Option String :=
  solveParts data (chunk_by_newlines data workers)

end Sol2

/-! Specification-side definitions used by the theorems: a reference scanner
that emits the individual `(station, value)` records of a byte range (the
`scan_chunk` state machine with the table replaced by the record list), the
canonical aggregate of a list of observed values, and predicates describing
range lists produced by the partitioner. -/

namespace Sol1

/-- State of the record-emitting reference scanner: like `ScanState` with the
table replaced by the emitted record list. -/
structure RecState where
  recs : List (List Nat × Int)
  field : List Nat
  station : List Nat
  has : Bool

/-- One step of the reference scanner: identical control flow to `scanStep`,
emitting `(station, value)` instead of folding into the table. -/
def recStep (st : RecState) (b : Nat) : Option RecState :=
  if b = 59 then some { st with station := st.field, field := [], has := true }
  else if b = 10 then
    if st.has then
      if st.field = [] then some { st with field := [], has := false }
      else
        match parse_digits st.field with
        | none => none
        | some v =>
          some { st with recs := st.recs ++ [(st.station, v)], field := [], has := false }
    else some { st with field := [], has := false }
  else some { st with field := st.field ++ [b] }

/-- The reference scanner loop. -/
def recBytes (st : RecState) : List Nat → Option RecState
  | [] => some st
  | b :: rest =>
    match recStep st b with
    | none => none
    | some st2 => recBytes st2 rest

/-- The record list of a byte sequence (fresh scanner state). -/
def recordsOf (bs : List Nat) : Option (List (List Nat × Int)) :=
  (recBytes ⟨[], [], [], false⟩ bs).map (fun st => st.recs)

/-- Fold a record list into a table (left to right). -/
def aggOf (recs : List (List Nat × Int)) : List (List Nat × Aggregator) :=
  recs.foldl (fun t r => updateTable t r.1 r.2) []

/-- The observed values of one station, in order, within a record list. -/
def obsFor (recs : List (List Nat × Int)) (k : List Nat) : List Int :=
  (recs.filter (fun r => decide (r.1 = k))).map (fun r => r.2)

/-- The canonical aggregate of a list of observed values: folded min and max
from the `i32` sentinels, exact sum, exact count. -/
def aggSpec (l : List Int) : Aggregator :=
  { min := l.foldl (fun m v => Min.min v m) 2147483647
  , max := l.foldl (fun m v => Max.max v m) (-2147483648)
  , sum := l.foldl (fun s v => s + v) 0
  , count := l.length }

/-- View of a reference-scanner state as a `scan_chunk` state (table = fold
of the emitted records). -/
def projAgg (st : RecState) : ScanState := ⟨aggOf st.recs, st.field, st.station, st.has⟩

/-- Correspondence between two reference-scanner runs whose initial states
differ only in the already-emitted record prefix `rs0`, and in the captured
station when no station is pending: both fail together, or their final
states agree up to the record prefix (and up to the station when none is
pending). -/
def OptRel (rs0 : List (List Nat × Int)) : Option RecState → Option RecState → Prop
  | none, none => True
  | some ra, some rb =>
      ra.recs = rs0 ++ rb.recs ∧ ra.field = rb.field ∧ ra.has = rb.has
        ∧ (ra.has = true → ra.station = rb.station)
  | _, _ => False

/-- Merge of two optional aggregates — the per-station effect of folding one
partition table into the global result. -/
def mop : Option Aggregator → Option Aggregator → Option Aggregator
  | a, none => a
  | none, some v => some v
  | some a, some v => some (mergeAgg a v)

/-- The optional canonical aggregate of an observation list: absent when no
observation exists. -/
def aggO (l : List Int) : Option Aggregator :=
  if l = [] then none else some (aggSpec l)

/-- The record lists of every partition of a range list. -/
def partRecs (data : List Nat) (rs : List (Nat × Nat)) :
    Option (List (List (List Nat × Int))) :=
  optMapM (fun r => recordsOf (byteSlice data r.1 r.2)) rs

end Sol1

/-- `covers s L rs`: the ranges of `rs` are contiguous, start exactly at `s`,
and end exactly at `L` — so their union is `[s, L)` and they are disjoint and
ordered. -/
def covers (s L : Nat) : List (Nat × Nat) → Bool
  | [] => decide (s = L)
  | r :: rest => decide (r.1 = s) && decide (s ≤ r.2) && covers r.2 L rest

/-- `nlAligned data rs`: every range of `rs` except possibly the last ends
exactly one past a newline byte of `data`. -/
def nlAligned (data : List Nat) : List (Nat × Nat) → Bool
  | [] => true
  | [_] => true
  | r :: rest => (decide (1 ≤ r.2) && decide (data.getD (r.2 - 1) 0 = 10)) && nlAligned data rest

/-! ## Theorems -/

/-- Helper: `parse_digits_go` aborts whenever any byte of the remaining
buffer lies outside `{'-', '.', '0'..'9'}`. -/
theorem parse_digits_go_bad (l : List Nat) :
    ∀ neg pm acc, (∃ b ∈ l, ¬(b = 45 ∨ b = 46 ∨ (48 ≤ b ∧ b ≤ 57))) →
      Sol1.parse_digits.parse_digits_go l neg pm acc = none := by
  induction l with
  | nil => intro _ _ _ h; rcases h with ⟨b, hb, _⟩; cases hb
  | cons x rest ih =>
    intro neg pm acc h
    rcases h with ⟨b, hb, hbad⟩
    unfold Sol1.parse_digits.parse_digits_go
    rcases List.mem_cons.mp hb with rfl | hmem
    · split
      · exact absurd (Or.inl (by assumption)) hbad
      · split
        · exact absurd (Or.inr (Or.inl (by assumption))) hbad
        · split
          · exact absurd (Or.inr (Or.inr (by assumption))) hbad
          · rfl
    · split
      · exact ih _ _ _ ⟨b, hmem, hbad⟩
      · split
        · exact ih _ _ _ ⟨b, hmem, hbad⟩
        · split
          · exact ih _ _ _ ⟨b, hmem, hbad⟩
          · rfl

/-- C1. For the input bytes `"Hamburg;12.3\nHamburg;10.1\nBerlin;-5.0\n"`
processed with worker count 1, `solve` of both implementations returns
exactly the expected summary string: Berlin with min, mean and max all
`-5.0`, then Hamburg with `10.1`, `11.2`, `12.3`, wrapped in braces with a
trailing newline. -/
theorem claim_C1 :
    Sol1.solve (strBytes ("Hamburg;12.3\nHamburg;10.1\nBerlin;-5.0\n")) 1
        = some ("\x7bBerlin=-5.0/-5.0/-5.0, Hamburg=10.1/11.2/12.3\x7d\n")
    ∧ Sol2.solve (strBytes ("Hamburg;12.3\nHamburg;10.1\nBerlin;-5.0\n")) 1
        = some ("\x7bBerlin=-5.0/-5.0/-5.0, Hamburg=10.1/11.2/12.3\x7d\n") :=
  ⟨by decide, by decide⟩

/-- C4. On the single-line input `"X;0.0"` with no trailing newline, `sol2`
accepts and counts the record (yielding `"{X=0.0/0.0/0.0}\n"`), but `sol1`'s
`scan_chunk` folds a record only upon reading a `'\n'` byte and never flushes
the pending final line, so `sol1::solve` returns `"{}\n"` — the claim (and
the specification) hold for `sol2` and fail for `sol1`. -/
theorem claim_C4 :
    Sol1.solve (strBytes ("X;0.0")) 1 = some ("\x7b\x7d\n")
    ∧ Sol2.solve (strBytes ("X;0.0")) 1 = some ("\x7bX=0.0/0.0/0.0\x7d\n") :=
  ⟨by decide, by decide⟩

/-- C7. On the input `"X;1.0\n\n"` (a record followed by an empty line),
`sol1` skips the empty line: its partition table holds exactly station `X`
with `(min, max, sum, count) = (10, 10, 10, 1)` in tenths and `solve`
returns `"{X=1.0/1.0/1.0}\n"` without aborting. `sol2`, however, treats the
`'\n'` of the empty line as a city name, then decodes the zero-padded empty
value token, whose wrapped `u64` digit arithmetic makes
`i16::try_from(...).unwrap()` panic: its `solve` aborts (`none`). -/
theorem claim_C7 :
    Sol1.scan_chunk 0 7 (strBytes ("X;1.0\n\n"))
        = some [([88], Sol1.Aggregator.mk 10 10 10 1)]
    ∧ Sol1.solve (strBytes ("X;1.0\n\n")) 1 = some ("\x7bX=1.0/1.0/1.0\x7d\n")
    ∧ Sol2.solve (strBytes ("X;1.0\n\n")) 1 = none :=
  ⟨by decide, by decide, by decide⟩

/-- C6 counterexample: the token `"111"` (bytes `49, 49, 49`) consists only
of digit bytes but matches none of the three fixed-point layouts, yet
`sol1`'s `parse_digits` does not abort — it returns the value `11`. -/
theorem claim_C6_cex :
    Sol1.parse_digits [49, 49, 49] = some 11
    ∧ Sol1.parse_digits [49, 49, 49] ≠ none :=
  ⟨by decide, by decide⟩

/-- C6 (amended). A numeric token containing a byte outside
`{'-', '.', '0'..'9'}` always makes `sol1`'s `parse_digits` abort; but a
token of only those bytes whose shape matches none of the three layouts is
decoded by `parse_digits` without aborting, and `sol2`'s `parse_number`
decodes some tokens with out-of-alphabet bytes in digit positions without
aborting (e.g. `"Z.A"` to `(437, 4)`, i.e. 43.7 degrees) — it aborts only
when the wrapped digit arithmetic leaves the `i16` range (e.g. on the
all-zero padded word). -/
theorem claim_C6 :
    (∀ buffer : List Nat,
        (∃ b ∈ buffer, ¬(b = 45 ∨ b = 46 ∨ (48 ≤ b ∧ b ≤ 57))) →
          Sol1.parse_digits buffer = none)
    ∧ Sol2.parse_number (Sol2.packLE (strBytes ("Z.A"))) = some (437, 4)
    ∧ Sol2.parse_number 0 = none := by
  refine ⟨fun buffer h => ?_, by decide, by decide⟩
  unfold Sol1.parse_digits
  split
  · rfl
  · exact parse_digits_go_bad buffer _ _ _ h

/-- C6 witness: the malformed token `"1a.0"` (bytes `49, 97, 46, 48`)
contains the out-of-alphabet byte `97` and `parse_digits` aborts on it. -/
theorem claim_C6_witness :
    (∃ b ∈ [49, 97, 46, 48], ¬(b = 45 ∨ b = 46 ∨ (48 ≤ b ∧ b ≤ 57)))
    ∧ Sol1.parse_digits [49, 97, 46, 48] = none :=
  ⟨by decide, claim_C6.1 [49, 97, 46, 48] (by decide)⟩

/-- Helper: a successful `memchr_newline` returns an in-range index whose
byte is a newline. -/
theorem memchr_newline_some :
    ∀ (l : List Nat) (i : Nat), memchr_newline l = some i →
      i < l.length ∧ l.getD i 0 = 10 := by
  intro l
  induction l with
  | nil => intro i h; cases h
  | cons b rest ih =>
    intro i h
    unfold memchr_newline at h
    by_cases hb : b = 10
    · simp only [hb, if_pos rfl] at h
      cases h
      simp [hb]
    · simp only [if_neg hb, Option.map_eq_some'] at h
      rcases h with ⟨j, hj, rfl⟩
      rcases ih j hj with ⟨h1, h2⟩
      exact ⟨by simpa using Nat.succ_lt_succ h1, by simpa using h2⟩

/-- Helper: `getD` through `drop`. -/
theorem getD_drop (l : List Nat) (m i : Nat) :
    (l.drop m).getD i 0 = l.getD (m + i) 0 := by
  simp [List.getD_eq_getElem?_getD, List.getElem?_drop]

/-- Helper: the ranges produced by the `chunk_by_newlines` loop are
contiguous from `s` and exhaust the buffer. -/
theorem chunkGo_covers (data : List Nat) (cs : Nat) :
    ∀ fuel s, s ≤ data.length → data.length - s < fuel →
      covers s data.length (chunkGo fuel data cs s) = true := by
  intro fuel
  induction fuel with
  | zero => intro s _ h; omega
  | succ fuel ih =>
    intro s hs hf
    unfold chunkGo
    by_cases hlt : s < data.length
    · simp only [if_pos hlt]
      by_cases hend : data.length ≤ s + cs
      · simp [hend, covers, hlt.le]
      · simp only [if_neg hend]
        cases hm : memchr_newline (data.drop (s + cs)) with
        | none => simp [covers, hlt.le]
        | some off =>
          have hoff := (memchr_newline_some _ _ hm).1
          have hlen : off < data.length - (s + cs) := by
            simpa using hoff
          simp only [covers, Bool.and_eq_true, decide_eq_true_eq]
          exact ⟨⟨by trivial, by omega⟩, ih (s + cs + off + 1) (by omega) (by omega)⟩
    · have : s = data.length := by omega
      subst this
      simp [covers]

/-- Helper: `nlAligned` extends through a head range that itself ends one
past a newline. -/
theorem nlAligned_cons (data : List Nat) (r : Nat × Nat) (rest : List (Nat × Nat))
    (h1 : 1 ≤ r.2) (h2 : data.getD (r.2 - 1) 0 = 10)
    (hrest : nlAligned data rest = true) :
    nlAligned data (r :: rest) = true := by
  cases rest with
  | nil => rfl
  | cons r2 rest2 =>
    simp only [nlAligned, Bool.and_eq_true, decide_eq_true_eq]
    exact ⟨⟨h1, h2⟩, hrest⟩

/-- Helper: every range produced by the `chunk_by_newlines` loop except
possibly the last ends one past a newline byte. -/
theorem chunkGo_nlAligned (data : List Nat) (cs : Nat) :
    ∀ fuel s, nlAligned data (chunkGo fuel data cs s) = true := by
  intro fuel
  induction fuel with
  | zero => intro s; rfl
  | succ fuel ih =>
    intro s
    unfold chunkGo
    by_cases hlt : s < data.length
    · simp only [if_pos hlt]
      by_cases hend : data.length ≤ s + cs
      · simp [hend, nlAligned]
      · simp only [if_neg hend]
        cases hm : memchr_newline (data.drop (s + cs)) with
        | none => simp [nlAligned]
        | some off =>
          have h2 := (memchr_newline_some _ _ hm).2
          rw [getD_drop] at h2
          exact nlAligned_cons data (s, s + cs + off + 1) _ (by omega)
            (by simpa using h2) (ih (s + cs + off + 1))
    · simp [if_neg hlt, nlAligned]

/-- C5 counterexample: for the empty buffer and worker count 1,
`chunk_by_newlines` returns the empty list — not a single (empty-or-whole)
range as claimed. -/
theorem claim_C5_cex :
    chunk_by_newlines [] 1 = [] ∧ (chunk_by_newlines [] 1).length ≠ 1 :=
  ⟨rfl, by decide⟩

/-- C5 (amended). For every buffer and worker count, `chunk_by_newlines`
returns an ordered list of disjoint contiguous ranges whose union is
`[0, L)`, each range except possibly the last ending exactly one past a
newline byte; `W = 0` and `W = 1` agree on every nonempty buffer; for the
empty buffer the result is the single empty range `[(0, 0)]` when `W = 0`
and the empty list (with the same empty union) when `W ≥ 1`. -/
theorem claim_C5 :
    (∀ (data : List Nat) (workers : Nat),
        covers 0 data.length (chunk_by_newlines data workers) = true)
    ∧ (∀ (data : List Nat) (workers : Nat),
        nlAligned data (chunk_by_newlines data workers) = true)
    ∧ (∀ data : List Nat, data ≠ [] →
        chunk_by_newlines data 0 = chunk_by_newlines data 1)
    ∧ (∀ workers : Nat,
        chunk_by_newlines [] workers = if workers = 0 then [(0, 0)] else []) := by
  refine ⟨fun data workers => ?_, fun data workers => ?_, fun data hne => ?_, fun workers => ?_⟩
  · unfold chunk_by_newlines
    by_cases hw : workers = 0
    · simp [hw, covers]
    · simp only [if_neg hw]
      exact chunkGo_covers data _ (data.length + 1) 0 (Nat.zero_le _) (by omega)
  · unfold chunk_by_newlines
    by_cases hw : workers = 0
    · simp [hw, nlAligned]
    · simp only [if_neg hw]
      exact chunkGo_nlAligned data _ (data.length + 1) 0
  · have hlen : data.length ≠ 0 := by
      simpa [List.length_eq_zero] using hne
    unfold chunk_by_newlines
    simp only [if_neg (by omega : (1 : Nat) ≠ 0), if_pos rfl]
    have hbase : data.length / max 1 1 = data.length := by simp
    rw [hbase]
    simp only [if_neg hlen]
    unfold chunkGo
    simp [Nat.pos_of_ne_zero hlen]
  · by_cases hw : workers = 0
    · simp [hw, chunk_by_newlines]
    · simp only [if_neg hw]
      unfold chunk_by_newlines
      simp [hw, chunkGo]

/-- C5 witness: the amended general statement applied to the concrete buffer
`"A;1.0\nB;2.0\n"` with two workers (both partitions end one past a
newline and cover the buffer), and to the nonempty-buffer agreement of
`W = 0` with `W = 1`. -/
theorem claim_C5_witness :
    covers 0 (strBytes ("A;1.0\nB;2.0\n")).length
        (chunk_by_newlines (strBytes ("A;1.0\nB;2.0\n")) 2) = true
    ∧ nlAligned (strBytes ("A;1.0\nB;2.0\n"))
        (chunk_by_newlines (strBytes ("A;1.0\nB;2.0\n")) 2) = true
    ∧ chunk_by_newlines (strBytes ("A;1.0\nB;2.0\n")) 0
        = chunk_by_newlines (strBytes ("A;1.0\nB;2.0\n")) 1 :=
  ⟨claim_C5.1 _ 2, claim_C5.2.1 _ 2, claim_C5.2.2.1 _ (by decide)⟩

/-- Helper: adding half the divisor before dividing equals rounding the
quotient to nearest (half up), in natural-number arithmetic. -/
theorem nat_delta (m c : Nat) (hc : 0 < c) :
    (m + c / 2) / c = (2 * m + c) / (2 * c) := by
  rcases Nat.even_or_odd c with ⟨k, hk⟩ | ⟨k, hk⟩
  · have hk2 : c / 2 = k := by omega
    have h1 : 2 * m + c = 2 * (m + k) := by omega
    have h2 : 2 * c = 2 * c := rfl
    rw [hk2, h1, Nat.mul_div_mul_left _ _ (by omega : 0 < 2)]
  · have hk2 : c / 2 = k := by omega
    have hq := Nat.div_add_mod (m + k) c
    have hr : (m + k) % c < c := Nat.mod_lt _ hc
    set q := (m + k) / c with hqdef
    set rr := (m + k) % c with hrdef
    have h1 : 2 * m + c = 2 * c * q + (2 * rr + 1) := by
      calc 2 * m + c = 2 * (m + k) + 1 := by omega
        _ = 2 * (c * q + rr) + 1 := by rw [hq]
        _ = 2 * c * q + (2 * rr + 1) := by ring
    rw [hk2, h1, Nat.mul_add_div (by omega : 0 < 2 * c)]
    have : (2 * rr + 1) / (2 * c) = 0 := Nat.div_eq_of_lt (by omega)
    omega

/-- Helper: the floor of `m/c + 1/2` over the rationals is the natural
number `(2m + c) / (2c)`. -/
theorem floor_half_nat (m c : Nat) (hc : 0 < c) :
    Int.floor ((m : Rat) / (c : Rat) + 1 / 2) = (((2 * m + c) / (2 * c) : Nat) : Int) := by
  have hc0 : (c : Rat) ≠ 0 := by
    exact_mod_cast Nat.pos_iff_ne_zero.mp hc
  have hstep : (m : Rat) / (c : Rat) + 1 / 2
      = (((2 * m + c : Nat) : Int) : Rat) / (((2 * c : Nat)) : Rat) := by
    push_cast
    field_simp
    ring
  rw [hstep, Rat.floor_intCast_div_natCast]
  rw [show ((2 * m + c : Nat) : Int) / ((2 * c : Nat) : Int)
      = (((2 * m + c) / (2 * c) : Nat) : Int) from (Int.natCast_div _ _).symm]

/-- Helper: `roundHalfAwayQ` on a nonnegative fraction of naturals. -/
theorem roundQ_natCast (m c : Nat) (hc : 0 < c) :
    roundHalfAwayQ ((m : Rat) / (c : Rat)) = (((2 * m + c) / (2 * c) : Nat) : Int) := by
  unfold roundHalfAwayQ
  rw [if_pos (by positivity)]
  exact floor_half_nat m c hc

/-- Helper: `roundHalfAwayQ` on a negative fraction of naturals. -/
theorem roundQ_neg_natCast (m c : Nat) (hc : 0 < c) (hm : 0 < m) :
    roundHalfAwayQ (-((m : Rat) / (c : Rat))) = -(((2 * m + c) / (2 * c) : Nat) : Int) := by
  unfold roundHalfAwayQ
  have hneg : -((m : Rat) / (c : Rat)) < 0 := by
    apply neg_neg_of_pos
    positivity
  rw [if_neg (by exact not_le.mpr hneg), neg_neg]
  exact congrArg Neg.neg (floor_half_nat m c hc)

/-- Helper: division of natural casts inside `Int` matches natural division
(all operands nonnegative). -/
theorem int_mean_eq (m c : Nat) :
    ((m : Int) + (c : Int) / 2) / (c : Int) = (((m + c / 2) / c : Nat) : Int) := by
  rw [show ((c : Int)) / 2 = ((c / 2 : Nat) : Int) by
        rw [Int.natCast_div]; norm_num,
      ← Int.natCast_add, ← Int.natCast_div]

/-- C3. The rendered mean is computed from the exact integer sum of tenths
divided by the exact count using round-half-away-from-zero: `sol1`'s
`mean_tenths` equals `roundHalfAwayQ` of the exact rational `sum / count`
for every sum and positive count (so neither truncation nor banker's
rounding), and `sol2`'s exact-fraction rounding `roundHalfAwayF` agrees with
`roundHalfAwayQ` as well; for observations `1.0, 2.0` (sum 30 tenths,
count 2) the mean renders as `1.5`, and for `1.0, 1.0, 2.0` (sum 40 tenths,
count 3) as `1.3`, in both implementations. -/
theorem claim_C3 :
    (∀ (s : Int) (c : Nat), 0 < c →
        Sol1.mean_tenths s c = roundHalfAwayQ ((s : Rat) / (c : Rat)))
    ∧ (∀ (n d : Int), 0 < d →
        roundHalfAwayF ⟨n, d⟩ = roundHalfAwayQ ((n : Rat) / (d : Rat)))
    ∧ Sol1.mean_tenths 30 2 = 15 ∧ Sol1.mean_tenths 40 3 = 13
    ∧ fmtTenths (Sol1.mean_tenths 30 2) = "1.5"
    ∧ fmtTenths (Sol1.mean_tenths 40 3) = "1.3"
    ∧ Sol2.fmtEntry.round1 (((Frac.ofInt 30).divInt 10).divInt 2) = ⟨15, 10⟩
    ∧ fmtFrac1 (Sol2.fmtEntry.round1 (((Frac.ofInt 30).divInt 10).divInt 2)) = "1.5"
    ∧ fmtFrac1 (Sol2.fmtEntry.round1 (((Frac.ofInt 40).divInt 10).divInt 3)) = "1.3" := by
  refine ⟨fun s c hc => ?_, fun n d hd => ?_, by decide, by decide, by decide,
    by decide, by decide, by decide, by decide⟩
  · unfold Sol1.mean_tenths
    by_cases hs : 0 ≤ s
    · obtain ⟨m, rfl⟩ := Int.eq_ofNat_of_zero_le hs
      rw [if_pos hs, int_mean_eq m c, nat_delta m c hc]
      rw [show (((m : Nat) : Int) : Rat) = ((m : Nat) : Rat) by push_cast; ring]
      exact (roundQ_natCast m c hc).symm
    · push_neg at hs
      obtain ⟨m, hm, rfl⟩ : ∃ m : Nat, 0 < m ∧ s = -(m : Int) :=
        ⟨s.natAbs, by omega, by omega⟩
      rw [if_neg (by omega), show -(-((m : Nat) : Int)) = ((m : Nat) : Int) by ring,
        int_mean_eq m c, nat_delta m c hc]
      push_cast [neg_div]
      exact_mod_cast (roundQ_neg_natCast m c hc hm).symm
  · obtain ⟨cd, rfl⟩ := Int.eq_ofNat_of_zero_le hd.le
    have hcd : 0 < cd := by exact_mod_cast hd
    by_cases hn : 0 ≤ n
    · obtain ⟨m, rfl⟩ := Int.eq_ofNat_of_zero_le hn
      simp only [roundHalfAwayF, if_pos (by omega : (0 : Int) ≤ ((m : Nat) : Int))]
      push_cast
      exact_mod_cast (roundQ_natCast m cd hcd).symm
    · push_neg at hn
      obtain ⟨m, hm, rfl⟩ : ∃ m : Nat, 0 < m ∧ n = -(m : Int) :=
        ⟨n.natAbs, by omega, by omega⟩
      simp only [roundHalfAwayF, if_neg (by omega : ¬(0 : Int) ≤ -((m : Nat) : Int))]
      push_cast [neg_div, abs_neg, Int.abs_natCast]
      exact_mod_cast (roundQ_neg_natCast m cd hcd hm).symm

/-- C3 witness: the general round-half-away statements applied at sum 30,
count 2 (for `mean_tenths`) and at the fraction 40/30 (for
`roundHalfAwayF`). -/
theorem claim_C3_witness :
    ((0 : Nat) < 2 ∧ Sol1.mean_tenths 30 2 = roundHalfAwayQ ((30 : Rat) / (2 : Rat)))
    ∧ ((0 : Int) < 30 ∧ roundHalfAwayF ⟨40, 30⟩ = roundHalfAwayQ ((40 : Rat) / (30 : Rat))) := by
  constructor
  · refine ⟨by decide, ?_⟩
    have h := claim_C3.1 30 2 (by decide)
    simpa using h
  · refine ⟨by decide, ?_⟩
    have h := claim_C3.2.1 40 30 (by decide)
    simpa using h

/-- Helper: the little-endian packed value of a byte list is bounded by
`256 ^ length`. -/
theorem packLE_lt (l : List Nat) (h : ∀ x ∈ l, x < 256) :
    Sol2.packLE l < 256 ^ l.length := by
  induction l with
  | nil => simp [Sol2.packLE]
  | cons b rest ih =>
    have hb : b < 256 := h b (List.mem_cons_self ..)
    have hrest := ih (fun x hx => h x (List.mem_cons_of_mem _ hx))
    simp only [Sol2.packLE, List.length_cons, pow_succ]
    calc b + 256 * Sol2.packLE rest
        ≤ 255 + 256 * Sol2.packLE rest := by omega
      _ < 256 * (Sol2.packLE rest + 1) := by omega
      _ ≤ 256 * 256 ^ rest.length := by
          have : Sol2.packLE rest + 1 ≤ 256 ^ rest.length := hrest
          exact Nat.mul_le_mul_left _ this
      _ = 256 ^ rest.length * 256 := by ring

/-- Helper: little-endian packing is injective on byte lists with no zero
byte (in particular the length is recovered from the value). -/
theorem packLE_inj :
    ∀ (a b : List Nat), (∀ x ∈ a, 0 < x ∧ x < 256) → (∀ x ∈ b, 0 < x ∧ x < 256) →
      Sol2.packLE a = Sol2.packLE b → a = b := by
  intro a
  induction a with
  | nil =>
    intro b _ hb h
    cases b with
    | nil => rfl
    | cons y ys =>
      exfalso
      have hy := (hb y (List.mem_cons_self ..)).1
      simp only [Sol2.packLE] at h
      omega
  | cons x xs ih =>
    intro b ha hb h
    cases b with
    | nil =>
      exfalso
      have hx := (ha x (List.mem_cons_self ..)).1
      simp only [Sol2.packLE] at h
      omega
    | cons y ys =>
      simp only [Sol2.packLE] at h
      have hx := ha x (List.mem_cons_self ..)
      have hy := hb y (List.mem_cons_self ..)
      have hxy : x = y ∧ Sol2.packLE xs = Sol2.packLE ys := by
        constructor <;> omega
      rcases hxy with ⟨rfl, htail⟩
      rw [ih ys (fun z hz => ha z (List.mem_cons_of_mem _ hz))
        (fun z hz => hb z (List.mem_cons_of_mem _ hz)) htail]

/-- Helper: for a key of at most 8 bytes (all `< 256`), the hash produced by
`create_hash` on `city_hash8_prefix` is exactly the packed key value. -/
theorem create_hash_short (l : List Nat) (h : ∀ x ∈ l, x < 256) (hl : l.length ≤ 8) :
    Sol2.create_hash (Sol2.city_hash8 l) l.length = Sol2.packLE l := by
  have htake : l.take 8 = l := List.take_of_length_le hl
  unfold Sol2.create_hash Sol2.city_hash8
  rw [htake]
  by_cases h8 : 8 ≤ l.length
  · rw [if_pos h8]
  · rw [if_neg h8]
    have hlt : Sol2.packLE l < 2 ^ (l.length * 8) := by
      have := packLE_lt l h
      calc Sol2.packLE l < 256 ^ l.length := this
        _ = 2 ^ (l.length * 8) := by
            rw [show (256 : Nat) = 2 ^ 8 by norm_num, ← pow_mul, Nat.mul_comm]
    rw [Nat.one_shiftLeft]
    exact Nat.and_pow_two_sub_one_of_lt_two_pow hlt

/-- C9. For station names of at most 8 bytes containing no zero byte,
`create_hash(city_hash8_prefix(name), name.len())` assigns two names equal
hash values exactly when the names are byte-for-byte equal — so the hash
table's hash-equality shortcut for keys of length at most 8 never conflates
two distinct such names. -/
theorem claim_C9 (a b : List Nat)
    (ha : ∀ x ∈ a, 0 < x ∧ x < 256) (hb : ∀ x ∈ b, 0 < x ∧ x < 256)
    (hla : a.length ≤ 8) (hlb : b.length ≤ 8) :
    (Sol2.create_hash (Sol2.city_hash8 a) a.length
      = Sol2.create_hash (Sol2.city_hash8 b) b.length) ↔ a = b := by
  rw [create_hash_short a (fun x hx => (ha x hx).2) hla,
    create_hash_short b (fun x hx => (hb x hx).2) hlb]
  constructor
  · exact packLE_inj a b ha hb
  · intro h
    rw [h]

/-- C9 witness: the general statement applied to the concrete one-byte name
`"H"` and two-byte name `"HI"`: their hashes differ because the names do. -/
theorem claim_C9_witness :
    (∀ x ∈ [72], 0 < x ∧ x < 256) ∧ (∀ x ∈ [72, 73], 0 < x ∧ x < 256)
    ∧ ((Sol2.create_hash (Sol2.city_hash8 [72]) ([72] : List Nat).length
          = Sol2.create_hash (Sol2.city_hash8 [72, 73]) ([72, 73] : List Nat).length)
        ↔ ([72] : List Nat) = [72, 73]) :=
  ⟨by decide, by decide,
    claim_C9 [72] [72, 73] (by decide) (by decide) (by decide) (by decide)⟩

/-- Helper: `updateTable` preserves (and establishes) positive counts. -/
theorem updateTable_count (t : List (List Nat × Sol1.Aggregator)) (k : List Nat) (v : Int)
    (hinv : ∀ kv ∈ t, 0 < kv.2.count) :
    ∀ kv ∈ Sol1.updateTable t k v, 0 < kv.2.count := by
  induction t with
  | nil =>
    intro kv hkv
    simp only [Sol1.updateTable, List.mem_singleton] at hkv
    subst hkv
    simp [Sol1.Aggregator.fold, Sol1.Aggregator.default]
  | cons p rest ih =>
    intro kv hkv
    obtain ⟨k0, a0⟩ := p
    simp only [Sol1.updateTable] at hkv
    by_cases hk : k0 = k
    · rw [if_pos hk] at hkv
      rcases List.mem_cons.mp hkv with rfl | hmem
      · have := hinv (k0, a0) (List.mem_cons_self ..)
        simp only [Sol1.Aggregator.fold] at *
        omega
      · exact hinv kv (List.mem_cons_of_mem _ hmem)
    · rw [if_neg hk] at hkv
      rcases List.mem_cons.mp hkv with rfl | hmem
      · exact hinv (k0, a0) (List.mem_cons_self ..)
      · exact ih (fun q hq => hinv q (List.mem_cons_of_mem _ hq)) kv hmem

/-- Helper: one scanner step preserves positive counts in the table. -/
theorem scanStep_count (st : Sol1.ScanState) (b : Nat) (st2 : Sol1.ScanState)
    (h : Sol1.scanStep st b = some st2) (hinv : ∀ kv ∈ st.tbl, 0 < kv.2.count) :
    ∀ kv ∈ st2.tbl, 0 < kv.2.count := by
  unfold Sol1.scanStep at h
  split at h
  · cases h; exact hinv
  · split at h
    · split at h
      · split at h
        · cases h; exact hinv
        · split at h
          · cases h
          · cases h
            exact updateTable_count _ _ _ hinv
      · cases h; exact hinv
    · cases h; exact hinv

/-- Helper: a full scan preserves positive counts in the table. -/
theorem scanBytes_count :
    ∀ (bs : List Nat) (st st' : Sol1.ScanState),
      (∀ kv ∈ st.tbl, 0 < kv.2.count) → Sol1.scanBytes st bs = some st' →
        ∀ kv ∈ st'.tbl, 0 < kv.2.count := by
  intro bs
  induction bs with
  | nil =>
    intro st st' hinv h
    cases h
    exact hinv
  | cons b rest ih =>
    intro st st' hinv h
    unfold Sol1.scanBytes at h
    cases hstep : Sol1.scanStep st b with
    | none => rw [hstep] at h; cases h
    | some st2 =>
      rw [hstep] at h
      exact ih st2 st' (scanStep_count st b st2 hstep hinv) h

/-- Helper: `mergeOne` preserves positive counts. -/
theorem mergeOne_count (res : List (List Nat × Sol1.Aggregator)) (k : List Nat)
    (v : Sol1.Aggregator) (hres : ∀ kv ∈ res, 0 < kv.2.count) (hv : 0 < v.count) :
    ∀ kv ∈ Sol1.mergeOne res k v, 0 < kv.2.count := by
  induction res with
  | nil =>
    intro kv hkv
    simp only [Sol1.mergeOne, List.mem_singleton] at hkv
    subst hkv
    exact hv
  | cons p rest ih =>
    intro kv hkv
    obtain ⟨k0, a0⟩ := p
    simp only [Sol1.mergeOne] at hkv
    by_cases hk : k0 = k
    · rw [if_pos hk] at hkv
      rcases List.mem_cons.mp hkv with rfl | hmem
      · have := hres (k0, a0) (List.mem_cons_self ..)
        simp only [Sol1.mergeAgg] at *
        omega
      · exact hres kv (List.mem_cons_of_mem _ hmem)
    · rw [if_neg hk] at hkv
      rcases List.mem_cons.mp hkv with rfl | hmem
      · exact hres (k0, a0) (List.mem_cons_self ..)
      · exact ih (fun q hq => hres q (List.mem_cons_of_mem _ hq)) kv hmem

/-- Helper: `mergeInto` preserves positive counts. -/
theorem mergeInto_count :
    ∀ (part res : List (List Nat × Sol1.Aggregator)),
      (∀ kv ∈ res, 0 < kv.2.count) → (∀ kv ∈ part, 0 < kv.2.count) →
        ∀ kv ∈ Sol1.mergeInto res part, 0 < kv.2.count := by
  intro part
  induction part with
  | nil =>
    intro res hres _
    exact hres
  | cons p rest ih =>
    intro res hres hpart
    have hstep := mergeOne_count res p.1 p.2 hres (hpart p (List.mem_cons_self ..))
    exact ih _ hstep (fun q hq => hpart q (List.mem_cons_of_mem _ hq))

/-- C10. Every aggregator in a table returned by `sol1`'s `scan_chunk` has
`count >= 1` (an entry is created only at the moment an observation is folded
in), and the merge fold of `solve` preserves this — so the division by
`count` in `mean_tenths` during the format phase never divides by zero. -/
theorem claim_C10 :
    (∀ (data : List Nat) (s e : Nat) (tbl : List (List Nat × Sol1.Aggregator)),
        Sol1.scan_chunk s e data = some tbl →
          ∀ kv ∈ tbl, 0 < kv.2.count ∧ ((kv.2.count : Int) ≠ 0))
    ∧ (∀ (res part : List (List Nat × Sol1.Aggregator)),
        (∀ kv ∈ res, 0 < kv.2.count) → (∀ kv ∈ part, 0 < kv.2.count) →
          ∀ kv ∈ Sol1.mergeInto res part, 0 < kv.2.count) := by
  constructor
  · intro data s e tbl h kv hkv
    unfold Sol1.scan_chunk at h
    cases hscan : Sol1.scanBytes ⟨[], [], [], false⟩ (byteSlice data s e) with
    | none => rw [hscan] at h; cases h
    | some st' =>
      rw [hscan] at h
      cases h
      have := scanBytes_count _ _ _ (by intro q hq; cases hq) hscan kv hkv
      exact ⟨this, by omega⟩
  · intro res part hres hpart
    exact mergeInto_count part res hres hpart

/-- C10 witness: the scan of `"A;1.0\n"` yields exactly station `A` with
count 1, and the theorem applied there gives the positive count. -/
theorem claim_C10_witness :
    Sol1.scan_chunk 0 6 (strBytes ("A;1.0\n"))
        = some [([65], Sol1.Aggregator.mk 10 10 10 1)]
    ∧ 0 < (Sol1.Aggregator.mk 10 10 10 1).count
    ∧ (((Sol1.Aggregator.mk 10 10 10 1).count : Int) ≠ 0) :=
  ⟨by decide,
    (claim_C10.1 (strBytes ("A;1.0\n")) 0 6 [([65], Sol1.Aggregator.mk 10 10 10 1)]
      (by decide) ([65], Sol1.Aggregator.mk 10 10 10 1) (by decide)).1,
    (claim_C10.1 (strBytes ("A;1.0\n")) 0 6 [([65], Sol1.Aggregator.mk 10 10 10 1)]
      (by decide) ([65], Sol1.Aggregator.mk 10 10 10 1) (by decide)).2⟩

/-- Helper: the scanner loop splits over list append. -/
theorem scanBytes_append (bs1 bs2 : List Nat) :
    ∀ st, Sol1.scanBytes st (bs1 ++ bs2)
      = (Sol1.scanBytes st bs1).bind (fun st2 => Sol1.scanBytes st2 bs2) := by
  induction bs1 with
  | nil => intro st; rfl
  | cons b rest ih =>
    intro st
    simp only [List.cons_append, Sol1.scanBytes]
    cases Sol1.scanStep st b with
    | none => rfl
    | some st2 => exact ih st2

/-- Helper: the reference scanner loop splits over list append. -/
theorem recBytes_append (bs1 bs2 : List Nat) :
    ∀ st, Sol1.recBytes st (bs1 ++ bs2)
      = (Sol1.recBytes st bs1).bind (fun st2 => Sol1.recBytes st2 bs2) := by
  induction bs1 with
  | nil => intro st; rfl
  | cons b rest ih =>
    intro st
    simp only [List.cons_append, Sol1.recBytes]
    cases Sol1.recStep st b with
    | none => rfl
    | some st2 => exact ih st2

/-- Helper: folding one more record into a table. -/
theorem aggOf_append_one (recs : List (List Nat × Int)) (k : List Nat) (v : Int) :
    Sol1.aggOf (recs ++ [(k, v)]) = Sol1.updateTable (Sol1.aggOf recs) k v := by
  unfold Sol1.aggOf
  rw [List.foldl_append]
  rfl

/-- Helper: one step of `scan_chunk` is the projection of one step of the
reference scanner. -/
theorem scanStep_proj (R : Sol1.RecState) (b : Nat) :
    Sol1.scanStep (Sol1.projAgg R) b = (Sol1.recStep R b).map Sol1.projAgg := by
  unfold Sol1.scanStep Sol1.recStep Sol1.projAgg
  by_cases h59 : b = 59
  · simp [h59]
  · by_cases h10 : b = 10
    · simp only [h59, h10, if_neg, if_pos, if_true, if_false, reduceIte]
      by_cases hhas : R.has
      · simp only [hhas, if_pos, if_true, reduceIte]
        by_cases hf : R.field = []
        · simp [hf]
        · simp only [hf, if_neg, reduceIte]
          cases Sol1.parse_digits R.field with
          | none => simp
          | some v => simp [aggOf_append_one]
      · simp [hhas]
    · simp [h59, h10]

/-- Helper: a `scan_chunk` run is the projection of the reference-scanner
run from the corresponding state. -/
theorem scanBytes_proj (bs : List Nat) :
    ∀ R, Sol1.scanBytes (Sol1.projAgg R) bs = (Sol1.recBytes R bs).map Sol1.projAgg := by
  induction bs with
  | nil => intro R; rfl
  | cons b rest ih =>
    intro R
    simp only [Sol1.scanBytes, Sol1.recBytes, scanStep_proj]
    cases Sol1.recStep R b with
    | none => rfl
    | some R2 => exact ih R2

/-- Helper: `scan_chunk` is the fold of the reference records of the range. -/
theorem scan_chunk_records (data : List Nat) (s e : Nat) :
    Sol1.scan_chunk s e data
      = (Sol1.recordsOf (byteSlice data s e)).map Sol1.aggOf := by
  unfold Sol1.scan_chunk Sol1.recordsOf
  have hinit : (⟨[], [], [], false⟩ : Sol1.ScanState)
      = Sol1.projAgg ⟨[], [], [], false⟩ := rfl
  rw [hinit, scanBytes_proj]
  cases Sol1.recBytes ⟨[], [], [], false⟩ (byteSlice data s e) with
  | none => rfl
  | some R => rfl

/-- Helper: two reference-scanner runs whose initial states agree except for
the already-emitted record prefix (and the pending station when no station
is pending) stay in lockstep. -/
theorem recBytes_shift (bs : List Nat) :
    ∀ (rs0 rb : List (List Nat × Int)) (f stA stB : List Nat) (h : Bool),
      (h = true → stA = stB) →
        Sol1.OptRel rs0 (Sol1.recBytes ⟨rs0 ++ rb, f, stA, h⟩ bs)
          (Sol1.recBytes ⟨rb, f, stB, h⟩ bs) := by
  induction bs with
  | nil =>
    intro rs0 rb f stA stB h hst
    exact ⟨rfl, rfl, rfl, hst⟩
  | cons b rest ih =>
    intro rs0 rb f stA stB h hst
    simp only [Sol1.recBytes, Sol1.recStep]
    by_cases h59 : b = 59
    · simp only [if_pos h59]
      exact ih rs0 rb [] f f true (fun _ => rfl)
    · by_cases h10 : b = 10
      · simp only [if_neg h59, if_pos h10]
        by_cases hhas : h = true
        · simp only [hhas, if_pos, if_true, reduceIte]
          by_cases hf : f = []
          · simp only [hf, if_pos, if_true, reduceIte]
            exact ih rs0 rb [] stA stB false (by simp)
          · simp only [hf, if_neg, reduceIte]
            cases Sol1.parse_digits f with
            | none => trivial
            | some v =>
              rw [hst hhas]
              have hres := ih rs0 (rb ++ [(stB, v)]) [] stB stB false (by simp)
              simpa [List.append_assoc] using hres
        · simp only [Bool.not_eq_true] at hhas
          simp only [hhas, Bool.false_eq_true, if_neg, if_false, reduceIte]
          exact ih rs0 rb [] stA stB false (by simp)
      · simp only [if_neg h59, if_neg h10]
        exact ih rs0 rb (f ++ [b]) stA stB h hst

/-- Helper: a step on a newline byte always clears the pending field and the
station flag. -/
theorem recStep_newline (st st2 : Sol1.RecState) (h : Sol1.recStep st 10 = some st2) :
    st2.field = [] ∧ st2.has = false := by
  unfold Sol1.recStep at h
  norm_num at h
  by_cases hhas : st.has = true
  · rw [if_pos hhas] at h
    by_cases hf : st.field = []
    · rw [if_pos hf] at h
      cases h
      exact ⟨rfl, rfl⟩
    · rw [if_neg hf] at h
      cases hp : Sol1.parse_digits st.field with
      | none => rw [hp] at h; cases h
      | some v =>
        rw [hp] at h
        cases h
        exact ⟨rfl, rfl⟩
  · rw [if_neg hhas] at h
    cases h
    exact ⟨rfl, rfl⟩

/-- Helper: after scanning a byte sequence ending in a newline, the scanner
state has no pending field and no pending station. -/
theorem recBytes_newline_state (bs : List Nat) (st st2 : Sol1.RecState)
    (h : Sol1.recBytes st (bs ++ [10]) = some st2) :
    st2.field = [] ∧ st2.has = false := by
  rw [recBytes_append] at h
  cases hmid : Sol1.recBytes st bs with
  | none => rw [hmid] at h; cases h
  | some stm =>
    rw [hmid] at h
    change Sol1.recBytes stm [10] = some st2 at h
    unfold Sol1.recBytes at h
    cases hstep : Sol1.recStep stm 10 with
    | none =>
      simp only [hstep] at h
      cases h
    | some st3 =>
      simp only [hstep] at h
      cases h
      exact recStep_newline stm st2 hstep

/-- Helper: a covering range list starts no later than it ends. -/
theorem covers_le : ∀ (rs : List (Nat × Nat)) (b L : Nat), covers b L rs = true → b ≤ L := by
  intro rs
  induction rs with
  | nil =>
    intro b L h
    have : b = L := by simpa [covers] using h
    omega
  | cons r rest ih =>
    intro b L h
    have hco : r.1 = b ∧ b ≤ r.2 ∧ covers r.2 L rest = true := by
      simpa [covers, Bool.and_eq_true, decide_eq_true_eq, and_assoc] using h
    have := ih r.2 L hco.2.2
    omega

/-- Helper: a byte range splits at any interior position. -/
theorem byteSlice_split (data : List Nat) (s m e : Nat) (hsm : s ≤ m) (hme : m ≤ e) :
    byteSlice data s e = byteSlice data s m ++ byteSlice data m e := by
  unfold byteSlice
  rw [show e - s = (m - s) + (e - m) by omega, List.take_add, List.drop_drop,
    show s + (m - s) = m by omega]

/-- Helper: a byte range ending just past a newline byte ends in that
newline. -/
theorem byteSlice_last_newline (data : List Nat) (s b : Nat)
    (hsb : s < b) (hbL : b ≤ data.length) (hnl : data.getD (b - 1) 0 = 10) :
    ∃ bs0, byteSlice data s b = bs0 ++ [10] := by
  refine ⟨byteSlice data s (b - 1), ?_⟩
  rw [byteSlice_split data s (b - 1) b (by omega) (by omega)]
  congr 1
  have hb1 : b - 1 < data.length := by omega
  unfold byteSlice
  rw [List.drop_eq_getElem_cons hb1, show b - (b - 1) = 1 by omega]
  simp only [List.take_succ_cons, List.take_zero]
  have : data[b - 1] = 10 := by
    have hgd := List.getD_eq_getElem data 0 hb1
    omega
  rw [this]

/-- Helper: unfolding of `optMapM` on a cons, in bind form. -/
theorem optMapM_cons {A B : Type} (f : A → Option B) (x : A) (l : List A) :
    optMapM f (x :: l)
      = (f x).bind (fun t => (optMapM f l).map (fun ts => t :: ts)) := by
  cases hfx : f x with
  | none => simp [optMapM, hfx]
  | some t =>
    cases hl : optMapM f l with
    | none => simp [optMapM, hfx, hl]
    | some ts => simp [optMapM, hfx, hl]

/-- Helper: over a newline-aligned covering range list, the records of the
whole remaining buffer are exactly the concatenation of the records of the
partitions (and one side fails exactly when the other does). -/
theorem partRecords (data : List Nat) :
    ∀ (rs : List (Nat × Nat)) (s : Nat),
      covers s data.length rs = true → nlAligned data rs = true →
        Sol1.recordsOf (byteSlice data s data.length)
          = (Sol1.partRecs data rs).map List.flatten := by
  intro rs
  induction rs with
  | nil =>
    intro s hcov _
    have hs : s = data.length := by simpa [covers] using hcov
    subst hs
    simp [byteSlice, Sol1.recordsOf, Sol1.recBytes, Sol1.partRecs, optMapM]
  | cons r rest ih =>
    intro s hcov hnl
    obtain ⟨a, b⟩ := r
    have hco : a = s ∧ s ≤ b ∧ covers b data.length rest = true := by
      simpa [covers, Bool.and_eq_true, decide_eq_true_eq, and_assoc] using hcov
    obtain ⟨ha, hsb, hcrest⟩ := hco
    subst ha
    have hbL : b ≤ data.length := covers_le rest b data.length hcrest
    cases rest with
    | nil =>
      have hb : b = data.length := by simpa [covers] using hcrest
      subst hb
      simp only [Sol1.partRecs, optMapM]
      cases hrec : Sol1.recordsOf (byteSlice data a data.length) with
      | none => simp
      | some x => simp
    | cons r2 rest2 =>
      have hnl2 : (1 ≤ b ∧ data.getD (b - 1) 0 = 10)
          ∧ nlAligned data (r2 :: rest2) = true := by
        simpa [nlAligned, Bool.and_eq_true, decide_eq_true_eq] using hnl
      obtain ⟨⟨hb1, hbnl⟩, hnlrest⟩ := hnl2
      have hIH := ih b hcrest hnlrest
      rw [byteSlice_split data a b data.length hsb hbL]
      unfold Sol1.recordsOf
      rw [recBytes_append]
      cases hp1 : Sol1.recBytes ⟨[], [], [], false⟩ (byteSlice data a b) with
      | none =>
        simp only [Option.none_bind, Option.map_none']
        have hcons : Sol1.partRecs data ((a, b) :: r2 :: rest2)
            = (Sol1.recordsOf (byteSlice data a b)).bind
                (fun t => (Sol1.partRecs data (r2 :: rest2)).map (fun ts => t :: ts)) := by
          unfold Sol1.partRecs
          exact optMapM_cons _ _ _
        have hrec1 : Sol1.recordsOf (byteSlice data a b) = none := by
          unfold Sol1.recordsOf
          rw [hp1]
          rfl
        rw [hcons, hrec1]
        rfl
      | some R =>
        have hRfh : R.field = [] ∧ R.has = false := by
          by_cases hab : a = b
          · subst hab
            rw [show byteSlice data a a = [] by simp [byteSlice]] at hp1
            cases hp1
            exact ⟨rfl, rfl⟩
          · obtain ⟨bs0, hbs0⟩ := byteSlice_last_newline data a b (by omega) hbL hbnl
            rw [hbs0] at hp1
            exact recBytes_newline_state _ _ _ hp1
        obtain ⟨Rrecs, Rfield, Rstation, Rhas⟩ := R
        obtain ⟨hf, hh⟩ := hRfh
        simp only at hf hh
        subst hf
        subst hh
        have hshift := recBytes_shift (byteSlice data b data.length) Rrecs [] []
          Rstation [] false (by simp)
        rw [List.append_nil] at hshift
        have hrec1 : Sol1.recordsOf (byteSlice data a b) = some Rrecs := by
          unfold Sol1.recordsOf
          rw [hp1]
          rfl
        cases h2 : Sol1.recBytes ⟨Rrecs, [], Rstation, false⟩ (byteSlice data b data.length) with
        | none =>
          rw [h2] at hshift
          cases h3 : Sol1.recBytes ⟨[], [], [], false⟩ (byteSlice data b data.length) with
          | none =>
            have hrec2 : Sol1.recordsOf (byteSlice data b data.length) = none := by
              unfold Sol1.recordsOf
              rw [h3]
              rfl
            rw [hrec2] at hIH
            have hrest : Sol1.partRecs data (r2 :: rest2) = none := by
              cases hx : Sol1.partRecs data (r2 :: rest2) with
              | none => rfl
              | some xs => rw [hx] at hIH; cases hIH
            have hcons : Sol1.partRecs data ((a, b) :: r2 :: rest2)
                = (Sol1.recordsOf (byteSlice data a b)).bind
                    (fun t => (Sol1.partRecs data (r2 :: rest2)).map (fun ts => t :: ts)) := by
              unfold Sol1.partRecs
              exact optMapM_cons _ _ _
            rw [hcons, hrec1, hrest]
            simp [h2]
          | some Rb =>
            rw [h3] at hshift
            exact absurd hshift (by simp [Sol1.OptRel])
        | some Ra =>
          rw [h2] at hshift
          cases h3 : Sol1.recBytes ⟨[], [], [], false⟩ (byteSlice data b data.length) with
          | none =>
            rw [h3] at hshift
            exact absurd hshift (by simp [Sol1.OptRel])
          | some Rb =>
            rw [h3] at hshift
            obtain ⟨hrecs, -, -, -⟩ := hshift
            have hrec2 : Sol1.recordsOf (byteSlice data b data.length) = some Rb.recs := by
              unfold Sol1.recordsOf
              rw [h3]
              rfl
            rw [hrec2] at hIH
            obtain ⟨xs, hxs, hflat⟩ : ∃ xs, Sol1.partRecs data (r2 :: rest2) = some xs
                ∧ List.flatten xs = Rb.recs := by
              cases hx : Sol1.partRecs data (r2 :: rest2) with
              | none => rw [hx] at hIH; cases hIH
              | some xs =>
                rw [hx] at hIH
                simp only [Option.map_some'] at hIH
                exact ⟨xs, rfl, (Option.some.inj hIH).symm⟩
            have hcons : Sol1.partRecs data ((a, b) :: r2 :: rest2)
                = (Sol1.recordsOf (byteSlice data a b)).bind
                    (fun t => (Sol1.partRecs data (r2 :: rest2)).map (fun ts => t :: ts)) := by
              unfold Sol1.partRecs
              exact optMapM_cons _ _ _
            rw [hcons, hrec1, hxs]
            simp [h2, hrecs, hflat]

/-- Helper: lookup after `updateTable`. -/
theorem lookupT_updateTable (t : List (List Nat × Sol1.Aggregator)) (k0 : List Nat) (v : Int) :
    ∀ k, Sol1.lookupT (Sol1.updateTable t k0 v) k
      = if k = k0 then
          some ((match Sol1.lookupT t k0 with
                 | some a => a
                 | none => Sol1.Aggregator.default).fold v)
        else Sol1.lookupT t k := by
  induction t with
  | nil =>
    intro k
    by_cases hk : k = k0
    · simp [Sol1.updateTable, Sol1.lookupT, hk]
    · simp only [Sol1.updateTable, Sol1.lookupT, if_neg hk, if_neg (fun h : k0 = k => hk h.symm)]
  | cons p rest ih =>
    intro k
    obtain ⟨k1, a1⟩ := p
    simp only [Sol1.updateTable]
    by_cases h1 : k1 = k0
    · rw [if_pos h1]
      subst h1
      simp only [Sol1.lookupT]
      by_cases hk : k1 = k
      · rw [if_pos hk]
        subst hk
        rw [if_pos rfl]
        simp [Sol1.lookupT]
      · rw [if_neg hk, if_neg (fun h : k = k1 => hk h.symm)]
        simp [Sol1.lookupT, if_neg hk]
    · rw [if_neg h1]
      simp only [Sol1.lookupT]
      by_cases hk : k1 = k
      · rw [if_pos hk]
        subst hk
        rw [if_neg (fun h : k1 = k0 => h1 h)]
        simp [Sol1.lookupT]
      · rw [if_neg hk, ih k]
        by_cases hk0 : k = k0
        · rw [if_pos hk0, if_pos hk0]
          simp [Sol1.lookupT, if_neg h1]
        · rw [if_neg hk0, if_neg hk0]
          simp [Sol1.lookupT, if_neg hk]

/-- Helper: the canonical aggregate of an extended observation list. -/
theorem aggSpec_append_one (l : List Int) (v : Int) :
    Sol1.aggSpec (l ++ [v]) = (Sol1.aggSpec l).fold v := by
  unfold Sol1.aggSpec Sol1.Aggregator.fold
  simp [List.foldl_append]

/-- Helper: observations distribute over record-list append. -/
theorem obsFor_append (r1 r2 : List (List Nat × Int)) (k : List Nat) :
    Sol1.obsFor (r1 ++ r2) k = Sol1.obsFor r1 k ++ Sol1.obsFor r2 k := by
  unfold Sol1.obsFor
  simp [List.filter_append]

/-- Helper: observations distribute over flattening. -/
theorem obsFor_flatten (rss : List (List (List Nat × Int))) (k : List Nat) :
    Sol1.obsFor rss.flatten k = (rss.map (fun rs => Sol1.obsFor rs k)).flatten := by
  induction rss with
  | nil => rfl
  | cons rs rest ih =>
    simp only [List.flatten_cons, obsFor_append, List.map_cons, ih]

/-- Helper: the empty canonical aggregate is the default aggregator. -/
theorem aggSpec_nil : Sol1.aggSpec [] = Sol1.Aggregator.default := rfl

/-- Helper: per-key characterization of the table folded from a record list:
the entry of a station is exactly the canonical aggregate of its observations
(absent when it has none). -/
theorem aggOf_char (recs : List (List Nat × Int)) :
    ∀ k, Sol1.lookupT (Sol1.aggOf recs) k = Sol1.aggO (Sol1.obsFor recs k) := by
  induction recs using List.reverseRecOn with
  | nil =>
    intro k
    simp [Sol1.aggOf, Sol1.lookupT, Sol1.obsFor, Sol1.aggO]
  | append_singleton recs r ih =>
    intro k
    obtain ⟨k0, v⟩ := r
    rw [aggOf_append_one, lookupT_updateTable, obsFor_append]
    by_cases hk : k = k0
    · rw [if_pos hk]
      subst hk
      rw [ih k]
      have hobs : Sol1.obsFor [(k, v)] k = [v] := by simp [Sol1.obsFor]
      rw [hobs]
      by_cases hemp : Sol1.obsFor recs k = []
      · rw [hemp]
        have h1 : Sol1.aggSpec [v] = Sol1.Aggregator.default.fold v := aggSpec_append_one [] v
        simp [Sol1.aggO, h1]
      · have h2 : Sol1.aggO (Sol1.obsFor recs k) = some (Sol1.aggSpec (Sol1.obsFor recs k)) := by
          simp [Sol1.aggO, hemp]
        rw [h2]
        simp [Sol1.aggO, aggSpec_append_one]
    · rw [if_neg hk, ih k]
      have hobs : Sol1.obsFor [(k0, v)] k = [] := by
        have : ¬k0 = k := fun h => hk h.symm
        simp [Sol1.obsFor, this]
      rw [hobs, List.append_nil]

/-- Helper: lookup over an appended table. -/
theorem lookupT_append (u w : List (List Nat × Sol1.Aggregator)) (k : List Nat) :
    Sol1.lookupT (u ++ w) k
      = match Sol1.lookupT u k with
        | some a => some a
        | none => Sol1.lookupT w k := by
  induction u with
  | nil => rfl
  | cons p rest ih =>
    obtain ⟨k1, a1⟩ := p
    simp only [List.cons_append, Sol1.lookupT]
    by_cases hk : k1 = k
    · rw [if_pos hk, if_pos hk]
    · rw [if_neg hk, if_neg hk]
      exact ih

/-- Helper: lookup misses keys not in the table. -/
theorem lookupT_not_mem (t : List (List Nat × Sol1.Aggregator)) (k : List Nat)
    (h : k ∉ t.map (fun p => p.1)) : Sol1.lookupT t k = none := by
  induction t with
  | nil => rfl
  | cons p rest ih =>
    obtain ⟨k1, a1⟩ := p
    simp only [List.map_cons, List.mem_cons] at h
    push_neg at h
    simp only [Sol1.lookupT, if_neg (fun hx : k1 = k => h.1 hx.symm)]
    exact ih h.2

/-- Helper: in a table with distinct keys, membership determines lookup. -/
theorem lookupT_of_mem_nodup (t : List (List Nat × Sol1.Aggregator)) (k : List Nat)
    (a : Sol1.Aggregator) (hn : (t.map (fun p => p.1)).Nodup) (hm : (k, a) ∈ t) :
    Sol1.lookupT t k = some a := by
  induction t with
  | nil => cases hm
  | cons p rest ih =>
    obtain ⟨k1, a1⟩ := p
    simp only [List.map_cons, List.nodup_cons] at hn
    rcases List.mem_cons.mp hm with heq | hmem
    · cases heq
      simp [Sol1.lookupT]
    · have hk : k1 ≠ k := by
        intro hx
        subst hx
        exact hn.1 (List.mem_map_of_mem _ hmem)
      simp only [Sol1.lookupT, if_neg hk]
      exact ih hn.2 hmem

/-- Helper: `updateTable` adds at most the updated key. -/
theorem mem_keys_updateTable (t : List (List Nat × Sol1.Aggregator)) (k : List Nat) (v : Int)
    (j : List Nat) (h : j ∈ (Sol1.updateTable t k v).map (fun p => p.1)) :
    j ∈ t.map (fun p => p.1) ∨ j = k := by
  induction t with
  | nil =>
    simp only [Sol1.updateTable, List.map_cons, List.map_nil, List.mem_singleton] at h
    exact Or.inr h
  | cons p rest ih =>
    obtain ⟨k1, a1⟩ := p
    simp only [Sol1.updateTable] at h
    by_cases hk : k1 = k
    · rw [if_pos hk] at h
      simp only [List.map_cons, List.mem_cons] at h
      rcases h with rfl | h
      · exact Or.inl (by simp)
      · exact Or.inl (by simp [h])
    · rw [if_neg hk] at h
      simp only [List.map_cons, List.mem_cons] at h
      rcases h with rfl | h
      · exact Or.inl (by simp)
      · rcases ih h with h2 | h2
        · exact Or.inl (by simp [h2])
        · exact Or.inr h2

/-- Helper: `updateTable` preserves distinctness of keys. -/
theorem updateTable_nodupkeys (t : List (List Nat × Sol1.Aggregator)) (k : List Nat) (v : Int)
    (hn : (t.map (fun p => p.1)).Nodup) :
    ((Sol1.updateTable t k v).map (fun p => p.1)).Nodup := by
  induction t with
  | nil => simp [Sol1.updateTable]
  | cons p rest ih =>
    obtain ⟨k1, a1⟩ := p
    simp only [List.map_cons, List.nodup_cons] at hn
    simp only [Sol1.updateTable]
    by_cases hk : k1 = k
    · rw [if_pos hk]
      simp only [List.map_cons, List.nodup_cons]
      exact hn
    · rw [if_neg hk]
      simp only [List.map_cons, List.nodup_cons]
      refine ⟨fun hmem => ?_, ih hn.2⟩
      rcases mem_keys_updateTable rest k v k1 hmem with h2 | h2
      · exact hn.1 h2
      · exact hk h2

/-- Helper: the table folded from any record list has distinct keys. -/
theorem aggOf_nodupkeys (recs : List (List Nat × Int)) :
    ((Sol1.aggOf recs).map (fun p => p.1)).Nodup := by
  suffices h : ∀ t, (t.map (fun p : List Nat × Sol1.Aggregator => p.1)).Nodup →
      ((recs.foldl (fun t r => Sol1.updateTable t r.1 r.2) t).map (fun p => p.1)).Nodup by
    exact h [] (by simp)
  induction recs with
  | nil => intro t ht; exact ht
  | cons r rest ih =>
    intro t ht
    exact ih _ (updateTable_nodupkeys t r.1 r.2 ht)

/-- Helper: lookup after `mergeOne`. -/
theorem lookupT_mergeOne (res : List (List Nat × Sol1.Aggregator)) (k0 : List Nat)
    (v : Sol1.Aggregator) :
    ∀ k, Sol1.lookupT (Sol1.mergeOne res k0 v) k
      = if k = k0 then
          (match Sol1.lookupT res k0 with
           | some a => some (Sol1.mergeAgg a v)
           | none => some v)
        else Sol1.lookupT res k := by
  induction res with
  | nil =>
    intro k
    by_cases hk : k = k0
    · simp [Sol1.mergeOne, Sol1.lookupT, hk]
    · simp only [Sol1.mergeOne, Sol1.lookupT, if_neg hk,
        if_neg (fun h : k0 = k => hk h.symm)]
  | cons p rest ih =>
    intro k
    obtain ⟨k1, a1⟩ := p
    simp only [Sol1.mergeOne]
    by_cases h1 : k1 = k0
    · rw [if_pos h1]
      subst h1
      simp only [Sol1.lookupT]
      by_cases hk : k1 = k
      · rw [if_pos hk]
        subst hk
        rw [if_pos rfl]
        simp [Sol1.lookupT]
      · rw [if_neg hk, if_neg (fun h : k = k1 => hk h.symm)]
        simp [Sol1.lookupT, if_neg hk]
    · rw [if_neg h1]
      simp only [Sol1.lookupT]
      by_cases hk : k1 = k
      · rw [if_pos hk]
        subst hk
        rw [if_neg (fun h : k1 = k0 => h1 h)]
        simp [Sol1.lookupT]
      · rw [if_neg hk, ih k]
        by_cases hk0 : k = k0
        · rw [if_pos hk0, if_pos hk0]
          simp [Sol1.lookupT, if_neg h1]
        · rw [if_neg hk0, if_neg hk0]
          simp [Sol1.lookupT, if_neg hk]

/-- Helper: `mergeOne` adds at most the merged key. -/
theorem mem_keys_mergeOne (res : List (List Nat × Sol1.Aggregator)) (k : List Nat)
    (v : Sol1.Aggregator) (j : List Nat)
    (h : j ∈ (Sol1.mergeOne res k v).map (fun p => p.1)) :
    j ∈ res.map (fun p => p.1) ∨ j = k := by
  induction res with
  | nil =>
    simp only [Sol1.mergeOne, List.map_cons, List.map_nil, List.mem_singleton] at h
    exact Or.inr h
  | cons p rest ih =>
    obtain ⟨k1, a1⟩ := p
    simp only [Sol1.mergeOne] at h
    by_cases hk : k1 = k
    · rw [if_pos hk] at h
      simp only [List.map_cons, List.mem_cons] at h
      rcases h with rfl | h
      · exact Or.inl (by simp)
      · exact Or.inl (by simp [h])
    · rw [if_neg hk] at h
      simp only [List.map_cons, List.mem_cons] at h
      rcases h with rfl | h
      · exact Or.inl (by simp)
      · rcases ih h with h2 | h2
        · exact Or.inl (by simp [h2])
        · exact Or.inr h2

/-- Helper: `mergeOne` preserves distinctness of keys. -/
theorem mergeOne_nodupkeys (res : List (List Nat × Sol1.Aggregator)) (k : List Nat)
    (v : Sol1.Aggregator) (hn : (res.map (fun p => p.1)).Nodup) :
    ((Sol1.mergeOne res k v).map (fun p => p.1)).Nodup := by
  induction res with
  | nil => simp [Sol1.mergeOne]
  | cons p rest ih =>
    obtain ⟨k1, a1⟩ := p
    simp only [List.map_cons, List.nodup_cons] at hn
    simp only [Sol1.mergeOne]
    by_cases hk : k1 = k
    · rw [if_pos hk]
      simp only [List.map_cons, List.nodup_cons]
      exact hn
    · rw [if_neg hk]
      simp only [List.map_cons, List.nodup_cons]
      refine ⟨fun hmem => ?_, ih hn.2⟩
      rcases mem_keys_mergeOne rest k v k1 hmem with h2 | h2
      · exact hn.1 h2
      · exact hk h2

/-- Helper: `mergeInto` preserves distinctness of keys of the accumulator. -/
theorem mergeInto_nodupkeys (part : List (List Nat × Sol1.Aggregator)) :
    ∀ res, (res.map (fun p => p.1)).Nodup →
      ((Sol1.mergeInto res part).map (fun p => p.1)).Nodup := by
  induction part with
  | nil => intro res h; exact h
  | cons p rest ih =>
    intro res h
    exact ih _ (mergeOne_nodupkeys res p.1 p.2 h)

/-- Helper: merging the absent aggregate on the right is the identity. -/
theorem mop_none_right (x : Option Sol1.Aggregator) : Sol1.mop x none = x := by
  cases x <;> rfl

/-- Helper: merging the absent aggregate on the left is the identity. -/
theorem mop_none_left (x : Option Sol1.Aggregator) : Sol1.mop none x = x := by
  cases x <;> rfl

/-- Helper: lookup after merging one partition table with distinct keys. -/
theorem lookupT_mergeInto :
    ∀ (part res : List (List Nat × Sol1.Aggregator)) (k : List Nat),
      (part.map (fun p => p.1)).Nodup →
        Sol1.lookupT (Sol1.mergeInto res part) k
          = Sol1.mop (Sol1.lookupT res k) (Sol1.lookupT part k) := by
  intro part
  induction part with
  | nil =>
    intro res k _
    exact (mop_none_right _).symm
  | cons p rest ih =>
    intro res k hnd
    obtain ⟨k0, v⟩ := p
    simp only [List.map_cons, List.nodup_cons] at hnd
    have hstep : Sol1.mergeInto res ((k0, v) :: rest)
        = Sol1.mergeInto (Sol1.mergeOne res k0 v) rest := rfl
    rw [hstep, ih _ k hnd.2, lookupT_mergeOne]
    by_cases hk : k = k0
    · subst hk
      rw [if_pos rfl]
      have hrest : Sol1.lookupT rest k = none :=
        lookupT_not_mem rest k hnd.1
      rw [hrest, mop_none_right]
      have hhead : Sol1.lookupT ((k, v) :: rest) k = some v := by
        simp [Sol1.lookupT]
      rw [hhead]
      cases Sol1.lookupT res k <;> rfl
    · rw [if_neg hk]
      have hhead : Sol1.lookupT ((k0, v) :: rest) k = Sol1.lookupT rest k := by
        simp [Sol1.lookupT, if_neg (fun h : k0 = k => hk h.symm)]
      rw [hhead]

/-- Helper: lookup after merging a list of partition tables, each with
distinct keys. -/
theorem lookupT_foldl_merge :
    ∀ (tbls : List (List (List Nat × Sol1.Aggregator)))
      (res : List (List Nat × Sol1.Aggregator)) (k : List Nat),
      (∀ t ∈ tbls, (t.map (fun p => p.1)).Nodup) →
        Sol1.lookupT (tbls.foldl Sol1.mergeInto res) k
          = (tbls.map (fun t => Sol1.lookupT t k)).foldl Sol1.mop (Sol1.lookupT res k) := by
  intro tbls
  induction tbls with
  | nil => intro res k _; rfl
  | cons t rest ih =>
    intro res k hnd
    simp only [List.foldl_cons, List.map_cons]
    rw [ih _ k (fun u hu => hnd u (List.mem_cons_of_mem _ hu)),
      lookupT_mergeInto t res k (hnd t (List.mem_cons_self ..))]

/-- Helper: a fold of the minimum pulls out of the seed. -/
theorem foldl_min_shift :
    ∀ (l : List Int) (a b : Int),
      l.foldl (fun m v => Min.min v m) (Min.min a b)
        = Min.min a (l.foldl (fun m v => Min.min v m) b) := by
  intro l
  induction l with
  | nil => intro a b; rfl
  | cons x rest ih =>
    intro a b
    simp only [List.foldl_cons]
    rw [show Min.min x (Min.min a b) = Min.min a (Min.min x b) from min_left_comm x a b, ih]

/-- Helper: a fold of the minimum never exceeds its seed. -/
theorem foldl_min_le :
    ∀ (l : List Int) (a : Int), l.foldl (fun m v => Min.min v m) a ≤ a := by
  intro l
  induction l with
  | nil => intro a; exact le_refl a
  | cons x rest ih =>
    intro a
    simp only [List.foldl_cons]
    exact le_trans (ih (Min.min x a)) (min_le_right x a)

/-- Helper: a fold of the maximum pulls out of the seed. -/
theorem foldl_max_shift :
    ∀ (l : List Int) (a b : Int),
      l.foldl (fun m v => Max.max v m) (Max.max a b)
        = Max.max a (l.foldl (fun m v => Max.max v m) b) := by
  intro l
  induction l with
  | nil => intro a b; rfl
  | cons x rest ih =>
    intro a b
    simp only [List.foldl_cons]
    rw [show Max.max x (Max.max a b) = Max.max a (Max.max x b) from max_left_comm x a b, ih]

/-- Helper: a fold of the maximum never drops below its seed. -/
theorem foldl_max_ge :
    ∀ (l : List Int) (a : Int), a ≤ l.foldl (fun m v => Max.max v m) a := by
  intro l
  induction l with
  | nil => intro a; exact le_refl a
  | cons x rest ih =>
    intro a
    simp only [List.foldl_cons]
    exact le_trans (le_max_right x a) (ih (Max.max x a))

/-- Helper: a fold of the sum pulls out of the seed. -/
theorem foldl_add_shift :
    ∀ (l : List Int) (a b : Int),
      l.foldl (fun s v => s + v) (a + b) = a + l.foldl (fun s v => s + v) b := by
  intro l
  induction l with
  | nil => intro a b; rfl
  | cons x rest ih =>
    intro a b
    simp only [List.foldl_cons]
    rw [add_assoc, ih]

/-- Helper: the canonical aggregate of concatenated observation lists is the
merge of the canonical aggregates. -/
theorem aggSpec_append (l1 l2 : List Int) :
    Sol1.aggSpec (l1 ++ l2) = Sol1.mergeAgg (Sol1.aggSpec l1) (Sol1.aggSpec l2) := by
  unfold Sol1.aggSpec Sol1.mergeAgg
  simp only [List.foldl_append, List.length_append, Sol1.Aggregator.mk.injEq]
  refine ⟨?_, ?_, ?_, trivial⟩
  · calc List.foldl (fun m v => Min.min v m) (List.foldl (fun m v => Min.min v m) 2147483647 l1) l2
        = List.foldl (fun m v => Min.min v m)
            (Min.min (List.foldl (fun m v => Min.min v m) 2147483647 l1) 2147483647) l2 := by
          rw [min_eq_left (foldl_min_le l1 2147483647)]
      _ = Min.min (List.foldl (fun m v => Min.min v m) 2147483647 l1)
            (List.foldl (fun m v => Min.min v m) 2147483647 l2) := foldl_min_shift l2 _ _
  · calc List.foldl (fun m v => Max.max v m)
            (List.foldl (fun m v => Max.max v m) (-2147483648) l1) l2
        = List.foldl (fun m v => Max.max v m)
            (Max.max (List.foldl (fun m v => Max.max v m) (-2147483648) l1) (-2147483648)) l2 := by
          rw [max_eq_left (foldl_max_ge l1 (-2147483648))]
      _ = Max.max (List.foldl (fun m v => Max.max v m) (-2147483648) l1)
            (List.foldl (fun m v => Max.max v m) (-2147483648) l2) := foldl_max_shift l2 _ _
  · calc List.foldl (fun s v => s + v) (List.foldl (fun s v => s + v) 0 l1) l2
        = List.foldl (fun s v => s + v) (List.foldl (fun s v => s + v) 0 l1 + 0) l2 := by
          rw [add_zero]
      _ = List.foldl (fun s v => s + v) 0 l1 + List.foldl (fun s v => s + v) 0 l2 :=
          foldl_add_shift l2 _ _

/-- Helper: `mop` on optional canonical aggregates is concatenation of the
observation lists. -/
theorem mop_aggO (a b : List Int) :
    Sol1.mop (Sol1.aggO a) (Sol1.aggO b) = Sol1.aggO (a ++ b) := by
  by_cases ha : a = []
  · subst ha
    rw [show Sol1.aggO [] = none from rfl, mop_none_left]
    simp
  · by_cases hb : b = []
    · subst hb
      rw [show Sol1.aggO [] = none from rfl, mop_none_right]
      simp
    · have h1 : Sol1.aggO a = some (Sol1.aggSpec a) := by simp [Sol1.aggO, ha]
      have h2 : Sol1.aggO b = some (Sol1.aggSpec b) := by simp [Sol1.aggO, hb]
      have h3 : Sol1.aggO (a ++ b) = some (Sol1.aggSpec (a ++ b)) := by
        simp [Sol1.aggO, ha]
      rw [h1, h2, h3, aggSpec_append]
      rfl

/-- Helper: folding `mop` over per-partition optional aggregates yields the
optional aggregate of the concatenated observations. -/
theorem foldl_mop_aggO :
    ∀ (obss : List (List Int)) (acc : List Int),
      (obss.map Sol1.aggO).foldl Sol1.mop (Sol1.aggO acc)
        = Sol1.aggO (acc ++ obss.flatten) := by
  intro obss
  induction obss with
  | nil => intro acc; simp
  | cons o rest ih =>
    intro acc
    simp only [List.map_cons, List.foldl_cons, List.flatten_cons]
    rw [mop_aggO, ih, List.append_assoc]

/-- Helper: byte-lexicographic order is reflexive. -/
theorem lexLeB_refl : ∀ a : List Nat, Sol1.lexLeB a a = true := by
  intro a
  induction a with
  | nil => rfl
  | cons x xs ih =>
    simp only [Sol1.lexLeB, lt_self_iff_false, if_false, reduceIte]
    exact ih

/-- Helper: byte-lexicographic order is total. -/
theorem lexLeB_total : ∀ a b : List Nat, Sol1.lexLeB a b = true ∨ Sol1.lexLeB b a = true := by
  intro a
  induction a with
  | nil => intro b; left; rfl
  | cons x xs ih =>
    intro b
    cases b with
    | nil => right; rfl
    | cons y ys =>
      simp only [Sol1.lexLeB]
      rcases Nat.lt_trichotomy x y with h | h | h
      · left
        rw [if_pos h]
      · subst h
        simp only [lt_self_iff_false, if_false, reduceIte]
        exact ih ys
      · right
        rw [if_pos h]

/-- Helper: byte-lexicographic order is transitive. -/
theorem lexLeB_trans :
    ∀ a b c : List Nat, Sol1.lexLeB a b = true → Sol1.lexLeB b c = true →
      Sol1.lexLeB a c = true := by
  intro a
  induction a with
  | nil => intro b c _ _; rfl
  | cons x xs ih =>
    intro b c hab hbc
    cases b with
    | nil => exact absurd hab (by simp [Sol1.lexLeB])
    | cons y ys =>
      cases c with
      | nil => exact absurd hbc (by simp [Sol1.lexLeB])
      | cons z zs =>
        simp only [Sol1.lexLeB] at hab hbc ⊢
        by_cases hxy : x < y
        · by_cases hyz : y < z
          · rw [if_pos (lt_trans hxy hyz)]
          · by_cases hzy : z < y
            · rw [if_neg hyz, if_pos hzy] at hbc
              cases hbc
            · have : y = z := by omega
              subst this
              rw [if_pos hxy]
        · by_cases hyx : y < x
          · rw [if_neg hxy, if_pos hyx] at hab
            cases hab
          · have : x = y := by omega
            subst this
            rw [if_neg hxy, if_neg hyx] at hab
            by_cases hxz : x < z
            · rw [if_pos hxz]
            · by_cases hzx : z < x
              · rw [if_neg hxz, if_pos hzx] at hbc
                cases hbc
              · have : x = z := by omega
                subst this
                rw [if_neg hxz, if_neg hzx] at hbc
                rw [if_neg hxz, if_neg hzx]
                exact ih ys zs hab hbc

/-- Helper: byte-lexicographic order is antisymmetric. -/
theorem lexLeB_antisymm :
    ∀ a b : List Nat, Sol1.lexLeB a b = true → Sol1.lexLeB b a = true → a = b := by
  intro a
  induction a with
  | nil =>
    intro b _ hba
    cases b with
    | nil => rfl
    | cons y ys => exact absurd hba (by simp [Sol1.lexLeB])
  | cons x xs ih =>
    intro b hab hba
    cases b with
    | nil => exact absurd hab (by simp [Sol1.lexLeB])
    | cons y ys =>
      simp only [Sol1.lexLeB] at hab hba
      by_cases hxy : x < y
      · rw [if_neg (by omega : ¬y < x), if_pos hxy] at hba
        cases hba
      · by_cases hyx : y < x
        · rw [if_neg hxy, if_pos hyx] at hab
          cases hab
        · have : x = y := by omega
          subst this
          rw [if_neg hxy, if_neg hyx] at hab
          rw [if_neg hxy, if_neg hyx] at hba
          rw [ih ys hab hba]

/-- Helper: a successful lookup splits the table at the first occurrence of
the key. -/
theorem lookupT_eq_some_split (t : List (List Nat × Sol1.Aggregator)) (k : List Nat)
    (a : Sol1.Aggregator) (h : Sol1.lookupT t k = some a) :
    ∃ u w, t = u ++ (k, a) :: w ∧ k ∉ u.map (fun p => p.1) := by
  induction t with
  | nil => cases h
  | cons p rest ih =>
    obtain ⟨k1, a1⟩ := p
    by_cases hk : k1 = k
    · subst hk
      simp only [Sol1.lookupT, if_pos rfl] at h
      cases h
      exact ⟨[], rest, rfl, by simp⟩
    · simp only [Sol1.lookupT, if_neg hk] at h
      obtain ⟨u, w, hw, hmem⟩ := ih h
      refine ⟨(k1, a1) :: u, w, by rw [hw]; rfl, ?_⟩
      simp only [List.map_cons, List.mem_cons]
      push_neg
      exact ⟨fun hx => hk hx.symm, hmem⟩

/-- Helper: two tables with distinct keys and identical lookups are
permutations of each other. -/
theorem assoc_perm :
    ∀ (t1 t2 : List (List Nat × Sol1.Aggregator)),
      (t1.map (fun p => p.1)).Nodup → (t2.map (fun p => p.1)).Nodup →
        (∀ k, Sol1.lookupT t1 k = Sol1.lookupT t2 k) → t1.Perm t2 := by
  intro t1
  induction t1 with
  | nil =>
    intro t2 _ _ hlook
    cases t2 with
    | nil => exact List.Perm.refl _
    | cons p rest =>
      exfalso
      have h := hlook p.1
      simp [Sol1.lookupT] at h
  | cons p r1 ih =>
    intro t2 hn1 hn2 hlook
    obtain ⟨k, a⟩ := p
    have hhead : Sol1.lookupT ((k, a) :: r1) k = some a := by
      simp [Sol1.lookupT]
    have h2 : Sol1.lookupT t2 k = some a := by rw [← hlook k, hhead]
    obtain ⟨u, w, rfl, humem⟩ := lookupT_eq_some_split t2 k a h2
    have hperm2 : (u ++ (k, a) :: w).Perm ((k, a) :: (u ++ w)) := List.perm_middle
    simp only [List.map_cons, List.nodup_cons] at hn1
    have hn2' : ((u ++ w).map (fun p => p.1)).Nodup := by
      have hmap : (u ++ (k, a) :: w).map (fun p => p.1)
          = u.map (fun p => p.1) ++ (k :: w.map (fun p => p.1)) := by simp
      rw [hmap] at hn2
      have hsub : (u.map (fun p => p.1) ++ w.map (fun p => p.1)).Sublist
          (u.map (fun p => p.1) ++ (k :: w.map (fun p => p.1))) :=
        List.Sublist.append_left (List.sublist_cons_self _ _) _
      have := hn2.sublist hsub
      simpa using this
    have hkw : k ∉ w.map (fun p => p.1) := by
      have hmap : (u ++ (k, a) :: w).map (fun p => p.1)
          = u.map (fun p => p.1) ++ (k :: w.map (fun p => p.1)) := by simp
      rw [hmap] at hn2
      have := (List.Nodup.of_append_right hn2)
      simp only [List.nodup_cons] at this
      exact this.1
    have hlook2 : ∀ k2, Sol1.lookupT r1 k2 = Sol1.lookupT (u ++ w) k2 := by
      intro k2
      by_cases hk2 : k2 = k
      · subst hk2
        rw [lookupT_not_mem r1 k2 hn1.1, lookupT_append,
          lookupT_not_mem u k2 humem, lookupT_not_mem w k2 hkw]
      · have h3 := hlook k2
        simp only [Sol1.lookupT, if_neg (fun h : k = k2 => hk2 h.symm)] at h3
        rw [h3, lookupT_append, lookupT_append]
        cases Sol1.lookupT u k2 with
        | none =>
          simp only [Sol1.lookupT, if_neg (fun h : k = k2 => hk2 h.symm)]
        | some b => rfl
    have hr1 : r1.Perm (u ++ w) := ih (u ++ w) hn1.2 hn2' hlook2
    exact (hr1.cons (k, a)).trans hperm2.symm

/-- Helper: two sorted tables with distinct keys that are permutations of
each other are equal. -/
theorem sorted_nodup_eq :
    ∀ (t1 t2 : List (List Nat × Sol1.Aggregator)),
      t1.Perm t2 → List.Sorted Sol1.entryLe t1 → List.Sorted Sol1.entryLe t2 →
        (t1.map (fun p => p.1)).Nodup → t1 = t2 := by
  intro t1
  induction t1 with
  | nil =>
    intro t2 hp _ _ _
    exact (hp.nil_eq).symm ▸ rfl
  | cons x r1 ih =>
    intro t2 hp hs1 hs2 hn1
    cases t2 with
    | nil => exact absurd hp.symm (by simp [List.Perm.nil_eq, List.perm_nil])
    | cons y r2 =>
      have hxy : Sol1.entryLe x y := by
        have hy1 : y ∈ x :: r1 := hp.mem_iff.mpr (List.mem_cons_self ..)
        rcases List.mem_cons.mp hy1 with rfl | hmem
        · exact lexLeB_refl _
        · exact (List.sorted_cons.mp hs1).1 y hmem
      have hyx : Sol1.entryLe y x := by
        have hx2 : x ∈ y :: r2 := hp.mem_iff.mp (List.mem_cons_self ..)
        rcases List.mem_cons.mp hx2 with rfl | hmem
        · exact lexLeB_refl _
        · exact (List.sorted_cons.mp hs2).1 x hmem
      have hkeys : x.1 = y.1 := lexLeB_antisymm x.1 y.1 hxy hyx
      have hxey : x = y := by
        have hx2 : x ∈ y :: r2 := hp.mem_iff.mp (List.mem_cons_self ..)
        rcases List.mem_cons.mp hx2 with h | hmem
        · exact h
        · exfalso
          have hn2 : ((y :: r2).map (fun p => p.1)).Nodup := by
            have := hp.map (fun p => p.1)
            exact this.nodup_iff.mp hn1
          simp only [List.map_cons, List.nodup_cons] at hn2
          exact hn2.1 (hkeys ▸ List.mem_map_of_mem _ hmem)
      subst hxey
      have hp2 : r1.Perm r2 := hp.cons_inv
      simp only [List.map_cons, List.nodup_cons] at hn1
      rw [ih r2 hp2 (List.sorted_cons.mp hs1).2 (List.sorted_cons.mp hs2).2 hn1.2]

/-- Helper: formatting depends only on the per-key content of a
distinct-key table. -/
theorem formatTable_eq (t1 t2 : List (List Nat × Sol1.Aggregator))
    (hn1 : (t1.map (fun p => p.1)).Nodup) (hn2 : (t2.map (fun p => p.1)).Nodup)
    (hl : ∀ k, Sol1.lookupT t1 k = Sol1.lookupT t2 k) :
    Sol1.formatTable t1 = Sol1.formatTable t2 := by
  haveI : IsTotal (List Nat × Sol1.Aggregator) Sol1.entryLe :=
    ⟨fun a b => lexLeB_total a.1 b.1⟩
  haveI : IsTrans (List Nat × Sol1.Aggregator) Sol1.entryLe :=
    ⟨fun a b c => lexLeB_trans a.1 b.1 c.1⟩
  have hperm : t1.Perm t2 := assoc_perm t1 t2 hn1 hn2 hl
  have hp1 : (List.insertionSort Sol1.entryLe t1).Perm (List.insertionSort Sol1.entryLe t2) :=
    ((List.perm_insertionSort _ t1).trans hperm).trans (List.perm_insertionSort _ t2).symm
  have hnd : ((List.insertionSort Sol1.entryLe t1).map (fun p => p.1)).Nodup := by
    have hm := (List.perm_insertionSort Sol1.entryLe t1).map (fun p => p.1)
    exact hm.nodup_iff.mpr hn1
  have heq := sorted_nodup_eq _ _ hp1 (List.sorted_insertionSort _ t1)
    (List.sorted_insertionSort _ t2) hnd
  unfold Sol1.formatTable
  rw [heq]

/-- Helper: the fan-in of any table list has distinct keys. -/
theorem mergeAll_nodupkeys (tbls : List (List (List Nat × Sol1.Aggregator))) :
    ((Sol1.mergeAll tbls).map (fun p => p.1)).Nodup := by
  suffices h : ∀ res, (res.map (fun p : List Nat × Sol1.Aggregator => p.1)).Nodup →
      ((tbls.foldl Sol1.mergeInto res).map (fun p => p.1)).Nodup from h [] (by simp)
  induction tbls with
  | nil => intro res h; exact h
  | cons t rest ih =>
    intro res h
    exact ih _ (mergeInto_nodupkeys t res h)

/-- Helper: `optMapM` of a post-composed map. -/
theorem optMapM_map {A B C : Type} (f : A → Option B) (g : B → C) :
    ∀ l, optMapM (fun x => (f x).map g) l = (optMapM f l).map (List.map g) := by
  intro l
  induction l with
  | nil => rfl
  | cons x rest ih =>
    rw [optMapM_cons, optMapM_cons, ih]
    cases f x with
    | none => rfl
    | some b =>
      cases optMapM f rest with
      | none => rfl
      | some bs => rfl

/-- Helper: per-key content of the fan-in of the tables folded from the
per-partition record lists. -/
theorem merged_char (rss : List (List (List Nat × Int))) (k : List Nat) :
    Sol1.lookupT (Sol1.mergeAll (rss.map Sol1.aggOf)) k
      = Sol1.aggO (Sol1.obsFor rss.flatten k) := by
  unfold Sol1.mergeAll
  rw [lookupT_foldl_merge (rss.map Sol1.aggOf) [] k (by
    intro t ht
    obtain ⟨rs0, _, rfl⟩ := List.mem_map.mp ht
    exact aggOf_nodupkeys rs0)]
  have h1 : ((rss.map Sol1.aggOf).map (fun t => Sol1.lookupT t k))
      = (rss.map (fun rs => Sol1.obsFor rs k)).map Sol1.aggO := by
    rw [List.map_map, List.map_map]
    exact List.map_congr_left (fun rs _ => aggOf_char rs k)
  rw [h1, show Sol1.lookupT [] k = Sol1.aggO [] by simp [Sol1.lookupT, Sol1.aggO],
    foldl_mop_aggO, obsFor_flatten]
  simp

/-- Helper: the whole buffer is its own full slice. -/
theorem byteSlice_all (data : List Nat) : byteSlice data 0 data.length = data := by
  simp [byteSlice]

/-- C2. For every buffer and every newline-aligned split of it into
partitions covering the whole buffer, `sol1`'s pipeline — scanning the
partitions independently, merging the partition tables, sorting and
formatting — produces exactly the same result as scanning the whole buffer
as a single partition (in particular the output does not depend on the
number of partitions); moreover, whenever the whole-buffer scan succeeds,
the partition scans succeed and the merged table has exactly the same
per-station `(min, max, sum, count)` aggregate as the whole-buffer table.
`sol2`, however, violates the claimed partition invariance on a well-formed
buffer: in `"ABCDEFGHI;1.0\nABCDEFGH;2.0\n"` the second station name is the
8-byte prefix of the first, so both names carry the same hash value, and the
single-partition scan folds the second observation into the first station's
node through the hash-only key test applied to keys of at most 8 bytes,
printing one station — while the newline-aligned two-partition split keeps
the two stations in separate partition tables and prints both. The same
well-formed input thus yields two different outputs depending on the
partition count (both runs complete without aborting). -/
theorem claim_C2 (data : List Nat) (rs : List (Nat × Nat))
    (hcov : covers 0 data.length rs = true) (hnl : nlAligned data rs = true) :
    Sol1.solveParts data rs = Sol1.solveParts data [(0, data.length)]
    ∧ (∀ tblW, Sol1.scan_chunk 0 data.length data = some tblW →
        ∃ tbls, Sol1.partScans data rs = some tbls
          ∧ ∀ k, Sol1.lookupT (Sol1.mergeAll tbls) k = Sol1.lookupT tblW k)
    ∧ (covers 0 (strBytes ("ABCDEFGHI;1.0\nABCDEFGH;2.0\n")).length
          [(0, 14), (14, 27)] = true
       ∧ nlAligned (strBytes ("ABCDEFGHI;1.0\nABCDEFGH;2.0\n"))
          [(0, 14), (14, 27)] = true
       ∧ Sol2.solveParts (strBytes ("ABCDEFGHI;1.0\nABCDEFGH;2.0\n"))
            [(0, 14), (14, 27)]
          = some ("\x7bABCDEFGH=1.0/1.5/2.0, ABCDEFGHI=1.0/1.0/1.0\x7d\n")
       ∧ Sol2.solveParts (strBytes ("ABCDEFGHI;1.0\nABCDEFGH;2.0\n"))
            [(0, (strBytes ("ABCDEFGHI;1.0\nABCDEFGH;2.0\n")).length)]
          = some ("\x7bABCDEFGHI=1.0/1.5/2.0\x7d\n")) := by
  have hsol2 : covers 0 (strBytes ("ABCDEFGHI;1.0\nABCDEFGH;2.0\n")).length
          [(0, 14), (14, 27)] = true
       ∧ nlAligned (strBytes ("ABCDEFGHI;1.0\nABCDEFGH;2.0\n"))
          [(0, 14), (14, 27)] = true
       ∧ Sol2.solveParts (strBytes ("ABCDEFGHI;1.0\nABCDEFGH;2.0\n"))
            [(0, 14), (14, 27)]
          = some ("\x7bABCDEFGH=1.0/1.5/2.0, ABCDEFGHI=1.0/1.0/1.0\x7d\n")
       ∧ Sol2.solveParts (strBytes ("ABCDEFGHI;1.0\nABCDEFGH;2.0\n"))
            [(0, (strBytes ("ABCDEFGHI;1.0\nABCDEFGH;2.0\n")).length)]
          = some ("\x7bABCDEFGHI=1.0/1.5/2.0\x7d\n") :=
    ⟨by decide, by decide, by decide, by decide⟩
  have hrec := partRecords data rs 0 hcov hnl
  rw [byteSlice_all] at hrec
  have hscans : ∀ rs2 : List (Nat × Nat),
      Sol1.partScans data rs2 = (Sol1.partRecs data rs2).map (List.map Sol1.aggOf) := by
    intro rs2
    unfold Sol1.partScans Sol1.partRecs
    rw [show (fun r : Nat × Nat => Sol1.scan_chunk r.1 r.2 data)
        = (fun r : Nat × Nat => (Sol1.recordsOf (byteSlice data r.1 r.2)).map Sol1.aggOf) from
      funext (fun r => scan_chunk_records data r.1 r.2)]
    exact optMapM_map _ _ rs2
  have hsingle : Sol1.partRecs data [(0, data.length)]
      = (Sol1.recordsOf data).map (fun t => [t]) := by
    unfold Sol1.partRecs
    rw [optMapM_cons]
    rw [byteSlice_all]
    cases Sol1.recordsOf data with
    | none => rfl
    | some t => rfl
  have hwhole : Sol1.scan_chunk 0 data.length data = (Sol1.recordsOf data).map Sol1.aggOf := by
    rw [scan_chunk_records, byteSlice_all]
  cases hprs : Sol1.partRecs data rs with
  | none =>
    rw [hprs] at hrec
    have hrnone : Sol1.recordsOf data = none := by simpa using hrec
    refine ⟨?_, ?_, hsol2⟩
    · show (Sol1.partScans data rs).map (fun tbls => Sol1.formatTable (Sol1.mergeAll tbls))
        = (Sol1.partScans data [(0, data.length)]).map
            (fun tbls => Sol1.formatTable (Sol1.mergeAll tbls))
      rw [hscans rs, hscans [(0, data.length)], hprs, hsingle, hrnone]
      rfl
    · intro tblW htbl
      rw [hwhole, hrnone] at htbl
      cases htbl
  | some rss =>
    rw [hprs] at hrec
    have hrsome : Sol1.recordsOf data = some rss.flatten := by simpa using hrec
    have hperkey : ∀ k, Sol1.lookupT (Sol1.mergeAll (rss.map Sol1.aggOf)) k
        = Sol1.lookupT (Sol1.aggOf rss.flatten) k := by
      intro k
      rw [merged_char, aggOf_char]
    refine ⟨?_, ?_, hsol2⟩
    · show (Sol1.partScans data rs).map (fun tbls => Sol1.formatTable (Sol1.mergeAll tbls))
        = (Sol1.partScans data [(0, data.length)]).map
            (fun tbls => Sol1.formatTable (Sol1.mergeAll tbls))
      rw [hscans rs, hscans [(0, data.length)], hprs, hsingle, hrsome]
      simp only [Option.map_some']
      congr 1
      have hsing : Sol1.mergeAll [Sol1.aggOf rss.flatten]
          = Sol1.mergeInto [] (Sol1.aggOf rss.flatten) := rfl
      apply formatTable_eq
      · exact mergeAll_nodupkeys _
      · exact mergeAll_nodupkeys _
      · intro k
        rw [hperkey k]
        simp only [List.map_cons, List.map_nil]
        rw [show Sol1.mergeAll [Sol1.aggOf rss.flatten]
            = Sol1.mergeInto [] (Sol1.aggOf rss.flatten) from rfl,
          lookupT_mergeInto _ _ _ (aggOf_nodupkeys _),
          show Sol1.lookupT [] k = (none : Option Sol1.Aggregator) from rfl, mop_none_left]
    · intro tblW htbl
      rw [hwhole, hrsome] at htbl
      simp only [Option.map_some'] at htbl
      cases htbl
      refine ⟨rss.map Sol1.aggOf, ?_, hperkey⟩
      rw [hscans rs, hprs]
      rfl

/-- C2 witness: the split of `"A;1.0\nB;2.0\n"` into its two lines produces
the same output, and the same merged per-station aggregates, as the
single-partition scan. -/
theorem claim_C2_witness :
    (covers 0 (strBytes ("A;1.0\nB;2.0\n")).length [(0, 6), (6, 12)] = true)
    ∧ Sol1.solveParts (strBytes ("A;1.0\nB;2.0\n")) [(0, 6), (6, 12)]
        = Sol1.solveParts (strBytes ("A;1.0\nB;2.0\n"))
            [(0, (strBytes ("A;1.0\nB;2.0\n")).length)] :=
  ⟨by decide,
    (claim_C2 (strBytes ("A;1.0\nB;2.0\n")) [(0, 6), (6, 12)] (by decide) (by decide)).1⟩

/-- Helper: a fold of the sum from a seed. -/
theorem foldl_sum (l : List Int) :
    ∀ a : Int, l.foldl (fun s v => s + v) a = a + l.sum := by
  induction l with
  | nil => intro a; simp
  | cons x rest ih =>
    intro a
    simp only [List.foldl_cons, List.sum_cons, ih]
    ring

/-- Helper: a fold of the minimum is below every list element. -/
theorem foldl_min_le_mem :
    ∀ (l : List Int) (a v : Int), v ∈ l → l.foldl (fun m v => Min.min v m) a ≤ v := by
  intro l
  induction l with
  | nil => intro a v hv; cases hv
  | cons x rest ih =>
    intro a v hv
    simp only [List.foldl_cons]
    rcases List.mem_cons.mp hv with rfl | hmem
    · exact le_trans (foldl_min_le rest (Min.min v a)) (min_le_left v a)
    · exact ih (Min.min x a) v hmem

/-- Helper: a fold of the maximum is above every list element. -/
theorem foldl_max_ge_mem :
    ∀ (l : List Int) (a v : Int), v ∈ l → v ≤ l.foldl (fun m v => Max.max v m) a := by
  intro l
  induction l with
  | nil => intro a v hv; cases hv
  | cons x rest ih =>
    intro a v hv
    simp only [List.foldl_cons]
    rcases List.mem_cons.mp hv with rfl | hmem
    · exact le_trans (le_max_left v a) (foldl_max_ge rest (Max.max v a))
    · exact ih (Max.max x a) v hmem

/-- Helper: the node fold of `sol2`'s `process_partition` maintains exact
count and sum and bounds every folded value between `min` and `max`. -/
theorem nodeFold_facts :
    ∀ (ts : List Int) (n : Sol2.Node),
      ((ts.foldl Sol2.nodeFold n).count = n.count + ts.length)
      ∧ ((ts.foldl Sol2.nodeFold n).sum = n.sum + ts.sum)
      ∧ ((ts.foldl Sol2.nodeFold n).min ≤ n.min)
      ∧ (n.max ≤ (ts.foldl Sol2.nodeFold n).max)
      ∧ (∀ v ∈ ts, (ts.foldl Sol2.nodeFold n).min ≤ v
          ∧ v ≤ (ts.foldl Sol2.nodeFold n).max) := by
  intro ts
  induction ts with
  | nil =>
    intro n
    refine ⟨by simp, by simp, le_refl _, le_refl _, fun v hv => absurd hv (by simp)⟩
  | cons t rest ih =>
    intro n
    obtain ⟨ihc, ihs, ihmin, ihmax, ihmem⟩ := ih (Sol2.nodeFold n t)
    simp only [List.foldl_cons]
    refine ⟨?_, ?_, ?_, ?_, ?_⟩
    · rw [ihc]
      simp [Sol2.nodeFold]
      omega
    · rw [ihs]
      simp [Sol2.nodeFold]
      ring
    · exact le_trans ihmin (by simp [Sol2.nodeFold])
    · exact le_trans (by simp [Sol2.nodeFold]) ihmax
    · intro v hv
      rcases List.mem_cons.mp hv with rfl | hmem
      · constructor
        · exact le_trans ihmin (by simp [Sol2.nodeFold])
        · exact le_trans (by simp [Sol2.nodeFold]) ihmax
      · exact ihmem v hmem

/-- C8. The aggregate invariant: a zero-count aggregate is exactly the
sentinel state (`i32` sentinels in `sol1`'s `Aggregator::default`, `i16`
sentinels in `sol2`'s `Node::new`, both with zero sum); and every aggregate
with observations bounds each observed tenths value between its `min` and
`max` and carries their exact count and exact integer sum — proved for
`sol1` per station against the reference record list of the scanned range,
and for `sol2` for the node fold performed per observation by
`process_partition`. -/
theorem claim_C8 :
    (Sol1.Aggregator.default.count = 0 ∧ Sol1.Aggregator.default.min = 2147483647
      ∧ Sol1.Aggregator.default.max = -2147483648 ∧ Sol1.Aggregator.default.sum = 0)
    ∧ (∀ (key : List Nat) (hsh : Nat), (Sol2.Node.new key hsh).count = 0
        ∧ (Sol2.Node.new key hsh).min = 32767 ∧ (Sol2.Node.new key hsh).max = -32768
        ∧ (Sol2.Node.new key hsh).sum = 0)
    ∧ (∀ (data : List Nat) (s e : Nat) (tbl : List (List Nat × Sol1.Aggregator)),
        Sol1.scan_chunk s e data = some tbl →
          ∀ kv ∈ tbl, ∃ recs, Sol1.recordsOf (byteSlice data s e) = some recs
            ∧ 0 < kv.2.count
            ∧ kv.2.count = (Sol1.obsFor recs kv.1).length
            ∧ kv.2.sum = (Sol1.obsFor recs kv.1).sum
            ∧ ∀ v ∈ Sol1.obsFor recs kv.1, kv.2.min ≤ v ∧ v ≤ kv.2.max)
    ∧ (∀ (key : List Nat) (hsh : Nat) (ts : List Int),
        (ts.foldl Sol2.nodeFold (Sol2.Node.new key hsh)).count = ts.length
        ∧ (ts.foldl Sol2.nodeFold (Sol2.Node.new key hsh)).sum = ts.sum
        ∧ ∀ v ∈ ts, (ts.foldl Sol2.nodeFold (Sol2.Node.new key hsh)).min ≤ v
            ∧ v ≤ (ts.foldl Sol2.nodeFold (Sol2.Node.new key hsh)).max) := by
  refine ⟨⟨rfl, rfl, rfl, rfl⟩, fun key hsh => ⟨rfl, rfl, rfl, rfl⟩, ?_, ?_⟩
  · intro data s e tbl htbl kv hkv
    rw [scan_chunk_records] at htbl
    cases hrec : Sol1.recordsOf (byteSlice data s e) with
    | none => rw [hrec] at htbl; cases htbl
    | some recs =>
      rw [hrec] at htbl
      simp only [Option.map_some'] at htbl
      cases htbl
      obtain ⟨k, a⟩ := kv
      have hlook : Sol1.lookupT (Sol1.aggOf recs) k = some a :=
        lookupT_of_mem_nodup _ k a (aggOf_nodupkeys recs) hkv
      rw [aggOf_char] at hlook
      have hobs : Sol1.obsFor recs k ≠ [] := by
        intro hemp
        rw [hemp] at hlook
        cases hlook
      have ha : a = Sol1.aggSpec (Sol1.obsFor recs k) := by
        unfold Sol1.aggO at hlook
        rw [if_neg hobs] at hlook
        exact (Option.some.inj hlook).symm
      subst ha
      refine ⟨recs, rfl, ?_, rfl, ?_, ?_⟩
      · show 0 < (Sol1.obsFor recs k).length
        cases hobsl : Sol1.obsFor recs k with
        | nil => exact absurd hobsl hobs
        | cons x r => simp
      · show (Sol1.obsFor recs k).foldl (fun s v => s + v) 0 = (Sol1.obsFor recs k).sum
        rw [foldl_sum, zero_add]
      · intro v hv
        exact ⟨foldl_min_le_mem _ _ v hv, foldl_max_ge_mem _ _ v hv⟩
  · intro key hsh ts
    obtain ⟨hc, hs, _, _, hmem⟩ := nodeFold_facts ts (Sol2.Node.new key hsh)
    exact ⟨by simpa [Sol2.Node.new] using hc, by simpa [Sol2.Node.new] using hs, hmem⟩

/-- C8 witness: the scan of `"A;1.0\n"` yields for station `A` the aggregate
`(10, 10, 10, 1)`, whose count is positive and whose sum is the exact sum of
its single observed value. -/
theorem claim_C8_witness :
    0 < (Sol1.Aggregator.mk 10 10 10 1).count
    ∧ (Sol1.Aggregator.mk 10 10 10 1).sum = (Sol1.obsFor [([65], 10)] [65]).sum := by
  have h := claim_C8.2.2.1 (strBytes ("A;1.0\n")) 0 6
    [([65], Sol1.Aggregator.mk 10 10 10 1)] (by decide)
    ([65], Sol1.Aggregator.mk 10 10 10 1) (by decide)
  obtain ⟨recs, hrecs, h1, h2, h3, h4⟩ := h
  have hconc : Sol1.recordsOf (byteSlice (strBytes ("A;1.0\n")) 0 6)
      = some [([65], (10 : Int))] := by decide
  rw [hconc] at hrecs
  have hr := Option.some.inj hrecs
  subst hr
  exact ⟨h1, h3⟩
